import Mathlib

/-!
# Midpoint circle and DDA line generators

A shallow embedding of the two point generators of the repository,
`bresenhamCircle` (with `symmetricPoint` and `toNDC`) and `DDA`.

The source computes in `float`.  Two readings of that arithmetic are embedded.

* Exact arithmetic: a `float` is a rational `ℚ` and every operation is the
  exact one (`toNDC`, `symmetricPoint`, `circleLoop`, `bresenhamCircle`,
  `octantPoints`, `canonical`, `ddaLoop`, `DDA`).  This is the reading of the
  statements that say "arithmetic read exactly".  Division by zero, which the
  source only reaches in `DDA` with two identical endpoints, is the total
  division of `ℚ` (`q / 0 = 0`); the theorems about that case do not depend on
  the value.  In this reading the `while` and `for` loops are recursive
  functions whose termination is proved.
* Binary32 arithmetic: a `float` is an IEEE-754 binary32 value and every
  operation is the exact one followed by rounding to nearest, ties to even
  (`fl`), each operation being evaluated in single precision (`toNDCF`,
  `symmetricNativeF`, `symmetricPointF`, `circleLoopF`, `bresenhamCircleF`,
  `octantPointsF`, `nativePointsF`).  The binary32 loop of `bresenhamCircle`
  does not always exit, so it is run for a given number of iterations.

`std::vector<float>` is `List ℚ`, in push order, and the `int` loop counter of
`DDA` is a natural number without wrap-around.
-/

namespace Raster

/-! ## The vertex buffer layout -/

/-- Decode a flat buffer with three floats per vertex (x, y, z), the layout
both programs hand to `glVertexAttribPointer(0, 3, GL_FLOAT, ..)`, into its
sequence of 2D points. -/
def vertices : List ℚ → List (ℚ × ℚ)
  | x :: y :: _ :: rest => (x, y) :: vertices rest
  | _ => []

/-! ## Bresenham circle -/

/-- Screen width, `const unsigned int SCR_WIDTH = 800`. -/
def SCR_WIDTH : ℕ := 800

/-- Screen height, `const unsigned int SCR_HEIGHT = 600`. -/
def SCR_HEIGHT : ℕ := 600

/-- Convert screen coordinates to NDC, in exact arithmetic. -/
def toNDC (x y : ℚ) : ℚ × ℚ :=
  let ndc_x := (2 * x / (SCR_WIDTH : ℚ)) - 1
  let ndc_y := (2 * y / (SCR_HEIGHT : ℚ)) - 1
  (ndc_x, ndc_y)

/-- Generate the 8 symmetric points of the circle, in exact arithmetic: the
arrays `dx`, `dy` of the source, walked in index order, each point mapped
through `toNDC` and pushed as three floats. -/
def symmetricPoint (cx cy x y : ℚ) : List ℚ :=
  let dx : List ℚ := [x, -x, -x, x, y, -y, -y, y]
  let dy : List ℚ := [y, y, -y, -y, x, x, -x, -x]
  (List.zip dx dy).flatMap fun o =>
    let ndc := toNDC (cx + o.1) (cy + o.2)
    [ndc.1, ndc.2, 0]

/-- The eight offsets `(dx[i], dy[i])`, `i = 0..7`, that `symmetricPoint` adds
to the centre, in index order. -/
def symmetricOffsets (x y : ℚ) : List (ℚ × ℚ) :=
  [(x, y), (-x, y), (-x, -y), (x, -y), (y, x), (-y, x), (-y, -x), (y, -x)]

/-- The `while (x <= y)` loop of `bresenhamCircle` in exact arithmetic, from
the loop state `(x, y, d)`; the result is what the loop appends to `points`. -/
def circleLoop (cx cy x y d : ℚ) : List ℚ :=
  if x ≤ y then
    symmetricPoint cx cy x y ++
      (if d < 0 then
        circleLoop cx cy (x + 1) y (d + (4 * x + 6) / 2)
      else
        circleLoop cx cy (x + 1) (y - 1) (d + (4 * (x - y) + 10) / 2))
  else []
termination_by (⌊y - x⌋ + 1).toNat
decreasing_by
  all_goals
    simp_wf
    have h0 : (0 : ℤ) ≤ ⌊y - x⌋ := Int.floor_nonneg.mpr (by linarith)
  · have h1 : ⌊y - (x + 1)⌋ = ⌊y - x⌋ - 1 := by
      rw [show y - (x + 1) = (y - x) - 1 by ring]; exact Int.floor_sub_one _
    omega
  · have h1 : ⌊y - 1 - (x + 1)⌋ = ⌊y - x⌋ - 2 := by
      rw [show y - 1 - (x + 1) = (y - x) - ((2 : ℕ) : ℚ) by push_cast; ring]
      rw [Int.floor_sub_nat]; simp
    omega

/-- Bresenham circle point generation in NDC, in exact arithmetic. -/
def bresenhamCircle (cx cy radius : ℚ) : List ℚ :=
  circleLoop cx cy 0 radius ((3 - 2 * radius) / 2)

/-- The octant points `(x, y)` at which the loop of `bresenhamCircle` calls
`symmetricPoint` in exact arithmetic, one per iteration, in order: the same
loop as `circleLoop` recording the loop state instead of the eight pushed
points. -/
def octantPoints (x y d : ℚ) : List (ℚ × ℚ) :=
  if x ≤ y then
    (x, y) ::
      (if d < 0 then
        octantPoints (x + 1) y (d + (4 * x + 6) / 2)
      else
        octantPoints (x + 1) (y - 1) (d + (4 * (x - y) + 10) / 2))
  else []
termination_by (⌊y - x⌋ + 1).toNat
decreasing_by
  all_goals
    simp_wf
    have h0 : (0 : ℤ) ≤ ⌊y - x⌋ := Int.floor_nonneg.mpr (by linarith)
  · have h1 : ⌊y - (x + 1)⌋ = ⌊y - x⌋ - 1 := by
      rw [show y - (x + 1) = (y - x) - 1 by ring]; exact Int.floor_sub_one _
    omega
  · have h1 : ⌊y - 1 - (x + 1)⌋ = ⌊y - x⌋ - 2 := by
      rw [show y - 1 - (x + 1) = (y - x) - ((2 : ℕ) : ℚ) by push_cast; ring]
      rw [Int.floor_sub_nat]; simp
    omega

/-- In exact arithmetic, a point `(px, py)` of the generator's native
coordinate space is emitted by `bresenhamCircle` when its image under `toNDC`
is a vertex of the output. -/
def emits (cx cy radius px py : ℚ) : Prop :=
  toNDC px py ∈ vertices (bresenhamCircle cx cy radius)

/-- The loop invariant of exact `bresenhamCircle` started at `(0, radius)`: `x` is
non-negative, `y` has not grown, `d` is the value of the halved decision
function at the next midpoint, and a state that passes the loop test has a
radial error `x² + y² − radius²` between `−y − 1/2` and `max 0 (y − 1/2)`. -/
def circleInv (r x y d : ℚ) : Prop :=
  0 ≤ x ∧ y ≤ r ∧ d = (x + 1) ^ 2 + y ^ 2 - y + 1 / 2 - r ^ 2 ∧
    (x ≤ y → -y - 1 / 2 ≤ x ^ 2 + y ^ 2 - r ^ 2 ∧ x ^ 2 + y ^ 2 - r ^ 2 ≤ max 0 (y - 1 / 2))

/-! ## DDA line -/

/-- The left-to-right swap at the head of `DDA`: the endpoints as
`(x0, y0, x1, y1)` after `if (x1 < x0) swap`. -/
def canonical (x0 y0 x1 y1 : ℚ) : ℚ × ℚ × ℚ × ℚ :=
  if x1 < x0 then (x1, y1, x0, y0) else (x0, y0, x1, y1)

/-- The `for (int i = 0; i <= stepsize; ++i)` loop of `DDA` from counter `i`
and running point `(x, y)`. -/
def ddaLoop (stepsize xinc yinc : ℚ) (i : ℕ) (x y : ℚ) : List ℚ :=
  if (i : ℚ) ≤ stepsize then
    x :: y :: 0 :: ddaLoop stepsize xinc yinc (i + 1) (x + xinc) (y + yinc)
  else []
termination_by (⌊stepsize⌋ + 1 - (i : ℤ)).toNat
decreasing_by
  simp_wf
  have h0 : (i : ℤ) ≤ ⌊stepsize⌋ := Int.le_floor.mpr (by exact_mod_cast ‹(i : ℚ) ≤ stepsize›)
  omega

/-- DDA algorithm to generate points between two coordinates. -/
def DDA (x0 y0 x1 y1 : ℚ) : List ℚ :=
  let c := canonical x0 y0 x1 y1
  let dx := c.2.2.1 - c.1
  let dy := c.2.2.2 - c.2.1
  let stepsize := max |dx| |dy|
  let xinc := dx / stepsize
  let yinc := dy / stepsize
  ddaLoop stepsize xinc yinc 0 c.1 c.2.1

/-! ## Binary32 arithmetic -/

/-- Round a rational to the nearest integer, a tie going to the even one. -/
def roundEven (t : ℚ) : ℤ :=
  let f := ⌊t⌋
  let r := t - f
  if r < 1 / 2 then f else if 1 / 2 < r then f + 1 else if f % 2 = 0 then f else f + 1

/-- The spacing of binary32 values around `q`: `2 ^ (e − 23)` for
`2 ^ e ≤ |q| < 2 ^ (e + 1)`, and `2 ^ (−149)` in the subnormal range. -/
def ulp (q : ℚ) : ℚ := (2 : ℚ) ^ (max (Int.log 2 |q|) (-126) - 23)

/-- The binary32 value of an exact result `q`: round to nearest, ties to
even, with a 24-bit significand, subnormal range included.  A result beyond
the largest finite binary32 value, which the hardware turns into an infinity,
is kept as the rounded rational; the loop test and the loop counts of
`bresenhamCircle`, which read only `x`, `y` and `d`, are stated below for
radii far below that magnitude. -/
def fl (q : ℚ) : ℚ := (roundEven (q / ulp q) : ℚ) * ulp q

/-- Binary32 `toNDC`: `(2.0f * x / SCR_WIDTH) - 1.0f`, each operation rounded. -/
def toNDCF (x y : ℚ) : ℚ × ℚ :=
  let ndc_x := fl (fl (fl (2 * x) / (SCR_WIDTH : ℚ)) - 1)
  let ndc_y := fl (fl (fl (2 * y) / (SCR_HEIGHT : ℚ)) - 1)
  (ndc_x, ndc_y)

/-- The eight arguments `(cx + dx[i], cy + dy[i])` that binary32
`symmetricPoint` passes to `toNDC`: the points in the generator's native
coordinates, each sum rounded. -/
def symmetricNativeF (cx cy x y : ℚ) : List (ℚ × ℚ) :=
  let dx : List ℚ := [x, -x, -x, x, y, -y, -y, y]
  let dy : List ℚ := [y, y, -y, -y, x, x, -x, -x]
  (List.zip dx dy).map fun o => (fl (cx + o.1), fl (cy + o.2))

/-- Binary32 `symmetricPoint`. -/
def symmetricPointF (cx cy x y : ℚ) : List ℚ :=
  (symmetricNativeF cx cy x y).flatMap fun q =>
    let ndc := toNDCF q.1 q.2
    [ndc.1, ndc.2, 0]

/-- Binary32 initial decision variable, `(3 - 2 * radius) / 2`. -/
def d0F (radius : ℚ) : ℚ := fl (fl (3 - fl (2 * radius)) / 2)

/-- Binary32 update `d += (4 * x + 6) / 2`. -/
def dEastF (x d : ℚ) : ℚ := fl (d + fl (fl (fl (4 * x) + 6) / 2))

/-- Binary32 update `d += (4 * (x - y) + 10) / 2`. -/
def dSouthF (x y d : ℚ) : ℚ := fl (d + fl (fl (fl (4 * fl (x - y)) + 10) / 2))

/-- The binary32 `while (x <= y)` loop of `bresenhamCircle`, run for at most
`n` iterations: `some out` when the loop exits within them, `out` being what it
has appended to `points`, and `none` when it is still running after `n`
iterations. -/
def circleLoopF : ℕ → ℚ → ℚ → ℚ → ℚ → ℚ → Option (List ℚ)
  | 0, _, _, _, _, _ => none
  | n + 1, cx, cy, x, y, d =>
    if x ≤ y then
      (if d < 0 then
        circleLoopF n cx cy (fl (x + 1)) y (dEastF x d)
      else
        circleLoopF n cx cy (fl (x + 1)) (fl (y - 1)) (dSouthF x y d)).map
        fun rest => symmetricPointF cx cy x y ++ rest
    else some []

/-- Binary32 `bresenhamCircle`, run for at most `n` loop iterations. -/
def bresenhamCircleF (n : ℕ) (cx cy radius : ℚ) : Option (List ℚ) :=
  circleLoopF n cx cy 0 radius (d0F radius)

/-- The octant points `(x, y)` of the first `n` iterations of the binary32
loop, one per iteration, in order. -/
def octantPointsF : ℕ → ℚ → ℚ → ℚ → List (ℚ × ℚ)
  | 0, _, _, _ => []
  | n + 1, x, y, d =>
    if x ≤ y then
      (x, y) ::
        (if d < 0 then
          octantPointsF n (fl (x + 1)) y (dEastF x d)
        else
          octantPointsF n (fl (x + 1)) (fl (y - 1)) (dSouthF x y d))
    else []

/-- The native points pushed (through `toNDC`) by the first `n` iterations of
binary32 `bresenhamCircle`. -/
def nativePointsF (n : ℕ) (cx cy radius : ℚ) : List (ℚ × ℚ) :=
  (octantPointsF n 0 radius (d0F radius)).flatMap fun p => symmetricNativeF cx cy p.1 p.2

/-! ## Unfolding the loops -/

theorem octantPoints_exit {x y : ℚ} (d : ℚ) (h : y < x) : octantPoints x y d = [] := by
  rw [octantPoints, if_neg (not_le.mpr h)]

theorem octantPoints_east {x y d : ℚ} (h : x ≤ y) (hd : d < 0) :
    octantPoints x y d = (x, y) :: octantPoints (x + 1) y (d + (4 * x + 6) / 2) := by
  rw [octantPoints, if_pos h, if_pos hd]

theorem octantPoints_south {x y d : ℚ} (h : x ≤ y) (hd : 0 ≤ d) :
    octantPoints x y d =
      (x, y) :: octantPoints (x + 1) (y - 1) (d + (4 * (x - y) + 10) / 2) := by
  rw [octantPoints, if_pos h, if_neg (not_lt.mpr hd)]

theorem circleLoop_exit {x y : ℚ} (cx cy d : ℚ) (h : y < x) : circleLoop cx cy x y d = [] := by
  rw [circleLoop, if_neg (not_le.mpr h)]

theorem circleLoop_east {x y d : ℚ} (cx cy : ℚ) (h : x ≤ y) (hd : d < 0) :
    circleLoop cx cy x y d =
      symmetricPoint cx cy x y ++ circleLoop cx cy (x + 1) y (d + (4 * x + 6) / 2) := by
  rw [circleLoop, if_pos h, if_pos hd]

theorem circleLoop_south {x y d : ℚ} (cx cy : ℚ) (h : x ≤ y) (hd : 0 ≤ d) :
    circleLoop cx cy x y d =
      symmetricPoint cx cy x y ++
        circleLoop cx cy (x + 1) (y - 1) (d + (4 * (x - y) + 10) / 2) := by
  rw [circleLoop, if_pos h, if_neg (not_lt.mpr hd)]

theorem ddaLoop_exit {stepsize : ℚ} {i : ℕ} (xinc yinc x y : ℚ) (h : stepsize < (i : ℚ)) :
    ddaLoop stepsize xinc yinc i x y = [] := by
  rw [ddaLoop, if_neg (not_le.mpr h)]

theorem ddaLoop_step {stepsize : ℚ} {i : ℕ} (xinc yinc x y : ℚ) (h : (i : ℚ) ≤ stepsize) :
    ddaLoop stepsize xinc yinc i x y =
      x :: y :: 0 :: ddaLoop stepsize xinc yinc (i + 1) (x + xinc) (y + yinc) := by
  rw [ddaLoop, if_pos h]

/-! ## The circle output as octant points expanded by symmetry -/

theorem vertices_cons (x y z : ℚ) (l : List ℚ) :
    vertices (x :: y :: z :: l) = (x, y) :: vertices l := by
  simp [vertices]

theorem vertices_symmetricPoint_append (cx cy x y : ℚ) (l : List ℚ) :
    vertices (symmetricPoint cx cy x y ++ l) =
      (symmetricOffsets x y).map (fun o => toNDC (cx + o.1) (cy + o.2)) ++ vertices l := by
  simp [symmetricPoint, symmetricOffsets, vertices]

theorem length_symmetricPoint (cx cy x y : ℚ) : (symmetricPoint cx cy x y).length = 24 := by
  simp [symmetricPoint]

theorem vertices_circleLoop (cx cy x y d : ℚ) :
    vertices (circleLoop cx cy x y d) =
      (octantPoints x y d).flatMap fun p =>
        (symmetricOffsets p.1 p.2).map fun o => toNDC (cx + o.1) (cy + o.2) := by
  induction x, y, d using octantPoints.induct with
  | case1 x y d hxy ihE ihS =>
    by_cases hd : d < 0
    · rw [circleLoop_east cx cy hxy hd, octantPoints_east hxy hd,
        vertices_symmetricPoint_append, ihE, List.flatMap_cons]
    · have hd0 : 0 ≤ d := not_lt.mp hd
      rw [circleLoop_south cx cy hxy hd0, octantPoints_south hxy hd0,
        vertices_symmetricPoint_append, ihS, List.flatMap_cons]
  | case2 x y d hxy =>
    rw [circleLoop_exit cx cy d (not_le.mp hxy), octantPoints_exit d (not_le.mp hxy)]
    simp [vertices]

theorem length_circleLoop (cx cy x y d : ℚ) :
    (circleLoop cx cy x y d).length = 24 * (octantPoints x y d).length := by
  induction x, y, d using octantPoints.induct with
  | case1 x y d hxy ihE ihS =>
    by_cases hd : d < 0
    · rw [circleLoop_east cx cy hxy hd, octantPoints_east hxy hd, List.length_append,
        length_symmetricPoint, ihE, List.length_cons]
      ring
    · have hd0 : 0 ≤ d := not_lt.mp hd
      rw [circleLoop_south cx cy hxy hd0, octantPoints_south hxy hd0, List.length_append,
        length_symmetricPoint, ihS, List.length_cons]
      ring
  | case2 x y d hxy =>
    rw [circleLoop_exit cx cy d (not_le.mp hxy), octantPoints_exit d (not_le.mp hxy)]
    simp

theorem toNDC_injective {a b c d : ℚ} (h : toNDC a b = toNDC c d) : a = c ∧ b = d := by
  simp only [toNDC, SCR_WIDTH, SCR_HEIGHT, Prod.mk.injEq] at h
  obtain ⟨h1, h2⟩ := h
  constructor
  · push_cast at h1; linarith
  · push_cast at h2; linarith

theorem emits_iff (cx cy radius px py : ℚ) :
    emits cx cy radius px py ↔
      ∃ p ∈ octantPoints 0 radius ((3 - 2 * radius) / 2),
        (px - cx, py - cy) ∈ symmetricOffsets p.1 p.2 := by
  unfold emits bresenhamCircle
  rw [vertices_circleLoop, List.mem_flatMap]
  constructor
  · rintro ⟨p, hp, hmem⟩
    refine ⟨p, hp, ?_⟩
    rw [List.mem_map] at hmem
    obtain ⟨o, ho, heq⟩ := hmem
    obtain ⟨h1, h2⟩ := toNDC_injective heq
    have : (px - cx, py - cy) = o := by
      ext
      · simp only; linarith
      · simp only; linarith
    rw [this]; exact ho
  · rintro ⟨p, hp, hmem⟩
    refine ⟨p, hp, ?_⟩
    rw [List.mem_map]
    exact ⟨_, hmem, by simp⟩

/-- Every loop state reached from a state satisfying a step-invariant `P`
satisfies `P`, and passes the loop test `x ≤ y`. -/
theorem octantPoints_invariant (P : ℚ → ℚ → ℚ → Prop)
    (east : ∀ x y d, x ≤ y → d < 0 → P x y d → P (x + 1) y (d + (4 * x + 6) / 2))
    (south : ∀ x y d, x ≤ y → 0 ≤ d → P x y d →
      P (x + 1) (y - 1) (d + (4 * (x - y) + 10) / 2))
    (x y d : ℚ) (h : P x y d) :
    ∀ p ∈ octantPoints x y d, p.1 ≤ p.2 ∧ ∃ d', P p.1 p.2 d' := by
  induction x, y, d using octantPoints.induct with
  | case1 x y d hxy ihE ihS =>
    intro p hp
    by_cases hd : d < 0
    · rw [octantPoints_east hxy hd, List.mem_cons] at hp
      rcases hp with rfl | hp
      · exact ⟨hxy, d, h⟩
      · exact ihE (east x y d hxy hd h) p hp
    · have hd0 : 0 ≤ d := not_lt.mp hd
      rw [octantPoints_south hxy hd0, List.mem_cons] at hp
      rcases hp with rfl | hp
      · exact ⟨hxy, d, h⟩
      · exact ihS (south x y d hxy hd0 h) p hp
  | case2 x y d hxy =>
    intro p hp
    rw [octantPoints_exit d (not_le.mp hxy)] at hp
    simp at hp

/-! ## The decision variable and the radial error -/

theorem circleInv_init (r : ℚ) : circleInv r 0 r ((3 - 2 * r) / 2) := by
  refine ⟨le_refl _, le_refl _, by ring, fun h => ⟨?_, ?_⟩⟩
  · have : (0 : ℚ) ^ 2 + r ^ 2 - r ^ 2 = 0 := by ring
    rw [this]; linarith
  · have : (0 : ℚ) ^ 2 + r ^ 2 - r ^ 2 = 0 := by ring
    rw [this]; exact le_max_left _ _

theorem circleInv_east (r x y d : ℚ) (hxy : x ≤ y) (hd : d < 0) (h : circleInv r x y d) :
    circleInv r (x + 1) y (d + (4 * x + 6) / 2) := by
  obtain ⟨hx, hy, hdv, hJ⟩ := h
  obtain ⟨hlo, -⟩ := hJ hxy
  refine ⟨by linarith, hy, by rw [hdv]; ring, fun _ => ⟨?_, ?_⟩⟩
  · nlinarith
  · refine le_trans ?_ (le_max_right _ _)
    rw [hdv] at hd
    nlinarith

theorem circleInv_south (r x y d : ℚ) (hxy : x ≤ y) (hd : 0 ≤ d) (h : circleInv r x y d) :
    circleInv r (x + 1) (y - 1) (d + (4 * (x - y) + 10) / 2) := by
  obtain ⟨hx, hy, hdv, hJ⟩ := h
  obtain ⟨-, hhi⟩ := hJ hxy
  refine ⟨by linarith, by linarith, by rw [hdv]; ring, fun hnext => ⟨?_, ?_⟩⟩
  · rw [hdv] at hd
    nlinarith
  · rcases le_max_iff.mp hhi with h0 | h1
    · refine le_trans ?_ (le_max_left _ _)
      nlinarith
    · refine le_trans ?_ (le_max_right _ _)
      nlinarith

/-- Every octant point of a run from `(0, radius)` satisfies the invariant. -/
theorem octantPoints_circleInv (r : ℚ) :
    ∀ p ∈ octantPoints 0 r ((3 - 2 * r) / 2),
      0 ≤ p.1 ∧ p.1 ≤ p.2 ∧ p.2 ≤ r ∧
        -p.2 - 1 / 2 ≤ p.1 ^ 2 + p.2 ^ 2 - r ^ 2 ∧
        p.1 ^ 2 + p.2 ^ 2 - r ^ 2 ≤ max 0 (p.2 - 1 / 2) := by
  intro p hp
  obtain ⟨hle, d', h0, h1, -, hJ⟩ :=
    octantPoints_invariant (circleInv r) (circleInv_east r) (circleInv_south r) 0 r
      ((3 - 2 * r) / 2) (circleInv_init r) p hp
  exact ⟨h0, hle, h1, (hJ hle).1, (hJ hle).2⟩

/-- The radial error of every octant point is at most `radius + 1/2` in
absolute value. -/
theorem octantPoints_error (r : ℚ) :
    ∀ p ∈ octantPoints 0 r ((3 - 2 * r) / 2), |p.1 ^ 2 + p.2 ^ 2 - r ^ 2| ≤ r + 1 / 2 := by
  intro p hp
  obtain ⟨h0, hle, hr, hlo, hhi⟩ := octantPoints_circleInv r p hp
  rw [abs_le]
  constructor
  · linarith
  · rcases le_max_iff.mp hhi with h | h <;> linarith

/-- The eight symmetric offsets all have the squared length of the octant point. -/
theorem symmetricOffsets_sq {x y : ℚ} {o : ℚ × ℚ} (h : o ∈ symmetricOffsets x y) :
    o.1 ^ 2 + o.2 ^ 2 = x ^ 2 + y ^ 2 := by
  simp only [symmetricOffsets, List.mem_cons, List.mem_singleton, List.not_mem_nil, or_false] at h
  rcases h with h | h | h | h | h | h | h | h <;> (subst h; ring)

/-- Integer-valued start: every octant point of a run from an integer radius
has integer coordinates. -/
theorem octantPoints_int (r : ℤ) :
    ∀ p ∈ octantPoints 0 (r : ℚ) ((3 - 2 * (r : ℚ)) / 2),
      ∃ a b : ℤ, p.1 = (a : ℚ) ∧ p.2 = (b : ℚ) := by
  intro p hp
  obtain ⟨-, d', a, b, ha, hb⟩ :=
    octantPoints_invariant (fun x y _ => ∃ a b : ℤ, x = (a : ℚ) ∧ y = (b : ℚ))
      (fun x y d _ _ ⟨a, b, ha, hb⟩ => ⟨a + 1, b, by rw [ha]; push_cast; ring, hb⟩)
      (fun x y d _ _ ⟨a, b, ha, hb⟩ =>
        ⟨a + 1, b - 1, by rw [ha]; push_cast; ring, by rw [hb]; push_cast; ring⟩)
      0 r ((3 - 2 * (r : ℚ)) / 2) ⟨0, r, by simp, rfl⟩ p hp
  exact ⟨a, b, ha, hb⟩

/-- The number of loop iterations is at most `⌊y − x⌋ + 1`. -/
theorem length_octantPoints_le (x y d : ℚ) :
    (octantPoints x y d).length ≤ (⌊y - x⌋ + 1).toNat := by
  induction x, y, d using octantPoints.induct with
  | case1 x y d hxy ihE ihS =>
    have h0 : (0 : ℤ) ≤ ⌊y - x⌋ := Int.floor_nonneg.mpr (by linarith)
    have hE : ⌊y - (x + 1)⌋ = ⌊y - x⌋ - 1 := by
      rw [show y - (x + 1) = (y - x) - 1 by ring]; exact Int.floor_sub_one _
    have hS : ⌊y - 1 - (x + 1)⌋ = ⌊y - x⌋ - 2 := by
      rw [show y - 1 - (x + 1) = (y - x) - ((2 : ℕ) : ℚ) by push_cast; ring]
      rw [Int.floor_sub_nat]; simp
    by_cases hd : d < 0
    · rw [octantPoints_east hxy hd, List.length_cons]
      rw [hE] at ihE
      omega
    · rw [octantPoints_south hxy (not_lt.mp hd), List.length_cons]
      rw [hS] at ihS
      omega
  | case2 x y d hxy =>
    rw [octantPoints_exit d (not_le.mp hxy)]
    simp

theorem symmetricOffsets_closed {x y a b : ℚ} (h : (a, b) ∈ symmetricOffsets x y) :
    (-a, b) ∈ symmetricOffsets x y ∧ (a, -b) ∈ symmetricOffsets x y ∧
      (b, a) ∈ symmetricOffsets x y := by
  simp only [symmetricOffsets, List.mem_cons, List.mem_singleton, List.not_mem_nil, or_false,
    Prod.mk.injEq] at h ⊢
  rcases h with h | h | h | h | h | h | h | h <;>
    (obtain ⟨ha, hb⟩ := h; subst ha hb; simp)

theorem octantPoints_radius_five :
    octantPoints 0 5 ((3 - 2 * 5) / 2) = [(0, 5), (1, 5), (2, 5), (3, 4)] := by
  norm_num [octantPoints_exit, octantPoints_east, octantPoints_south]

theorem emits_two_five : emits 0 0 5 2 5 := by
  rw [emits_iff, octantPoints_radius_five]
  exact ⟨(2, 5), by simp, by simp [symmetricOffsets]⟩

/-! ## Binary32 rounding -/

theorem roundEven_intCast (z : ℤ) : roundEven (z : ℚ) = z := by
  unfold roundEven
  simp

theorem abs_roundEven_sub_le (t : ℚ) : |((roundEven t : ℤ) : ℚ) - t| ≤ 1 / 2 := by
  have h1 : (⌊t⌋ : ℚ) ≤ t := Int.floor_le t
  have h2 : t < (⌊t⌋ : ℚ) + 1 := Int.lt_floor_add_one t
  unfold roundEven
  simp only []
  rw [abs_le]
  split_ifs with ha hb hc
  · constructor <;> linarith
  · push_cast; constructor <;> linarith
  · have : t - (⌊t⌋ : ℚ) = 1 / 2 := le_antisymm (not_lt.mp hb) (not_lt.mp ha)
    constructor <;> linarith
  · have : t - (⌊t⌋ : ℚ) = 1 / 2 := le_antisymm (not_lt.mp hb) (not_lt.mp ha)
    push_cast; constructor <;> linarith

theorem ulp_pos (q : ℚ) : 0 < ulp q := by
  unfold ulp; positivity

theorem fl_zero : fl 0 = 0 := by
  unfold fl
  rw [zero_div]
  have : roundEven 0 = 0 := by simpa using roundEven_intCast 0
  rw [this]; simp

theorem fl_of_ulp (q : ℚ) (j w : ℤ) (hu : ulp q = (2 : ℚ) ^ j) (hq : q = (w : ℚ) * (2 : ℚ) ^ j) :
    fl q = q := by
  have h2 : (2 : ℚ) ^ j ≠ 0 := by positivity
  have hdiv : q / (2 : ℚ) ^ j = (w : ℚ) := by
    rw [div_eq_iff h2]; exact hq
  unfold fl
  rw [hu, hdiv, roundEven_intCast, ← hq]

/-- A value `z · 2 ^ k` with `|z| < 2 ^ 24` and `k ≥ −149` is a binary32
value: rounding leaves it unchanged. -/
theorem fl_exact (z k : ℤ) (hz : |z| < 2 ^ 24) (hk : -149 ≤ k) :
    fl ((z : ℚ) * (2 : ℚ) ^ k) = (z : ℚ) * (2 : ℚ) ^ k := by
  by_cases hz0 : z = 0
  · subst hz0; simp [fl_zero]
  have h2k : (0 : ℚ) < (2 : ℚ) ^ k := by positivity
  have habs : |(z : ℚ) * (2 : ℚ) ^ k| = |(z : ℚ)| * (2 : ℚ) ^ k := by
    rw [abs_mul, abs_of_pos h2k]
  have hzpos : (0 : ℚ) < |(z : ℚ)| := abs_pos.mpr (by exact_mod_cast hz0)
  have hqpos : 0 < |(z : ℚ) * (2 : ℚ) ^ k| := by rw [habs]; positivity
  have hzlt : |(z : ℚ)| < (2 : ℚ) ^ (24 : ℤ) := by
    have : ((|z| : ℤ) : ℚ) < ((2 ^ 24 : ℤ) : ℚ) := by exact_mod_cast hz
    rw [Int.cast_abs] at this
    norm_num at this ⊢
    exact this
  have hlt : |(z : ℚ) * (2 : ℚ) ^ k| < ((2 : ℕ) : ℚ) ^ (24 + k) := by
    rw [habs, zpow_add₀ (by norm_num)]
    push_cast
    exact mul_lt_mul_of_pos_right hzlt h2k
  have hlog : Int.log 2 |(z : ℚ) * (2 : ℚ) ^ k| < 24 + k :=
    (Int.lt_zpow_iff_log_lt (by norm_num) hqpos).mp hlt
  have hj : max (Int.log 2 |(z : ℚ) * (2 : ℚ) ^ k|) (-126) - 23 ≤ k := by
    rcases max_cases (Int.log 2 |(z : ℚ) * (2 : ℚ) ^ k|) (-126) with ⟨h, -⟩ | ⟨h, -⟩ <;>
      rw [h] <;> omega
  obtain ⟨n, hn⟩ : ∃ n : ℕ, k = (max (Int.log 2 |(z : ℚ) * (2 : ℚ) ^ k|) (-126) - 23) + n :=
    ⟨(k - (max (Int.log 2 |(z : ℚ) * (2 : ℚ) ^ k|) (-126) - 23)).toNat, by omega⟩
  have hk2 : (2 : ℚ) ^ k =
      (2 : ℚ) ^ (max (Int.log 2 |(z : ℚ) * (2 : ℚ) ^ k|) (-126) - 23) * (2 : ℚ) ^ n := by
    rw [← zpow_natCast, ← zpow_add₀ (by norm_num : (2 : ℚ) ≠ 0)]
    exact congrArg _ hn
  refine fl_of_ulp _ (max (Int.log 2 |(z : ℚ) * (2 : ℚ) ^ k|) (-126) - 23) (z * 2 ^ n) rfl ?_
  push_cast
  conv_lhs => rw [hk2]
  ring

/-- Every integer of magnitude at most `2 ^ 24` is a binary32 value. -/
theorem fl_int (n : ℤ) (h : |n| ≤ 2 ^ 24) : fl (n : ℚ) = (n : ℚ) := by
  rcases lt_or_eq_of_le h with hlt | heq
  · simpa using fl_exact n 0 hlt (by norm_num)
  · rcases abs_eq (by norm_num : (0 : ℤ) ≤ 2 ^ 24) |>.mp heq with h1 | h1
    · have := fl_exact (2 ^ 23) 1 (by norm_num) (by norm_num)
      rw [h1]; norm_num at this ⊢; exact this
    · have := fl_exact (-(2 ^ 23)) 1 (by norm_num) (by norm_num)
      rw [h1]; norm_num at this ⊢; exact this

/-- Every half-integer `m / 2` with `|m| < 2 ^ 24` is a binary32 value. -/
theorem fl_half (m : ℤ) (h : |m| < 2 ^ 24) : fl ((m : ℚ) / 2) = (m : ℚ) / 2 := by
  have := fl_exact m (-1) h (by norm_num)
  have e : (m : ℚ) * (2 : ℚ) ^ (-1 : ℤ) = (m : ℚ) / 2 := by
    rw [zpow_neg_one]; ring
  rw [e] at this; exact this

theorem abs_fl_sub_le (q : ℚ) : |fl q - q| ≤ ulp q / 2 := by
  have hu := ulp_pos q
  have h := abs_roundEven_sub_le (q / ulp q)
  have e : fl q - q = ((roundEven (q / ulp q) : ℚ) - q / ulp q) * ulp q := by
    unfold fl; field_simp
  rw [e, abs_mul, abs_of_pos hu]
  calc |((roundEven (q / ulp q) : ℤ) : ℚ) - q / ulp q| * ulp q ≤ 1 / 2 * ulp q :=
        mul_le_mul_of_nonneg_right h hu.le
    _ = ulp q / 2 := by ring

theorem ulp_le_two (q : ℚ) (h : |q| ≤ 2 ^ 24) : ulp q ≤ 2 := by
  have hlog : Int.log 2 |q| ≤ 24 := by
    by_cases h0 : |q| = 0
    · rw [h0]; simp [Int.log]
    · have hpos : 0 < |q| := lt_of_le_of_ne (abs_nonneg q) (Ne.symm h0)
      have hmono := Int.log_mono_right (b := 2) hpos (show |q| ≤ ((2 : ℕ) : ℚ) ^ (24 : ℤ) by
        norm_num at h ⊢; exact h)
      rwa [Int.log_zpow (by norm_num)] at hmono
  unfold ulp
  have hexp : max (Int.log 2 |q|) (-126) - 23 ≤ 1 := by
    rcases max_cases (Int.log 2 |q|) (-126) with ⟨h1, -⟩ | ⟨h1, -⟩ <;> rw [h1] <;> omega
  calc (2 : ℚ) ^ (max (Int.log 2 |q|) (-126) - 23) ≤ (2 : ℚ) ^ (1 : ℤ) :=
        zpow_le_zpow_right₀ (by norm_num) hexp
    _ = 2 := by norm_num

/-- Up to magnitude `2 ^ 24`, rounding moves a value by at most 1. -/
theorem fl_le_add_one (q : ℚ) (h : |q| ≤ 2 ^ 24) : fl q ≤ q + 1 := by
  have h1 := (abs_le.mp (abs_fl_sub_le q)).2
  have h2 := ulp_le_two q h
  linarith

/-! ## The binary32 loop -/

theorem octantPointsF_zero (x y d : ℚ) : octantPointsF 0 x y d = [] := rfl

theorem octantPointsF_exit (n : ℕ) {x y : ℚ} (d : ℚ) (h : y < x) : octantPointsF n x y d = [] := by
  cases n with
  | zero => rfl
  | succ n => simp [octantPointsF, not_le.mpr h]

theorem octantPointsF_east (n : ℕ) {x y d : ℚ} (h : x ≤ y) (hd : d < 0) :
    octantPointsF (n + 1) x y d = (x, y) :: octantPointsF n (fl (x + 1)) y (dEastF x d) := by
  simp [octantPointsF, h, hd]

theorem octantPointsF_south (n : ℕ) {x y d : ℚ} (h : x ≤ y) (hd : 0 ≤ d) :
    octantPointsF (n + 1) x y d =
      (x, y) :: octantPointsF n (fl (x + 1)) (fl (y - 1)) (dSouthF x y d) := by
  simp [octantPointsF, h, not_lt.mpr hd]

theorem circleLoopF_exit (n : ℕ) {x y : ℚ} (cx cy d : ℚ) (h : y < x) :
    circleLoopF (n + 1) cx cy x y d = some [] := by
  simp [circleLoopF, not_le.mpr h]

theorem circleLoopF_east (n : ℕ) {x y d : ℚ} (cx cy : ℚ) (h : x ≤ y) (hd : d < 0) :
    circleLoopF (n + 1) cx cy x y d =
      (circleLoopF n cx cy (fl (x + 1)) y (dEastF x d)).map
        fun rest => symmetricPointF cx cy x y ++ rest := by
  simp [circleLoopF, h, hd]

theorem circleLoopF_south (n : ℕ) {x y d : ℚ} (cx cy : ℚ) (h : x ≤ y) (hd : 0 ≤ d) :
    circleLoopF (n + 1) cx cy x y d =
      (circleLoopF n cx cy (fl (x + 1)) (fl (y - 1)) (dSouthF x y d)).map
        fun rest => symmetricPointF cx cy x y ++ rest := by
  simp [circleLoopF, h, not_lt.mpr hd]

theorem length_symmetricPointF (cx cy x y : ℚ) : (symmetricPointF cx cy x y).length = 24 := by
  simp [symmetricPointF, symmetricNativeF]

/-- When the binary32 loop exits within `n` iterations, its output is 24
floats for each octant point of the run, and more iterations change nothing. -/
theorem circleLoopF_some (cx cy : ℚ) :
    ∀ (n : ℕ) (x y d : ℚ) (out : List ℚ), circleLoopF n cx cy x y d = some out →
      out.length = 24 * (octantPointsF n x y d).length ∧
        circleLoopF (n + 1) cx cy x y d = some out ∧
        octantPointsF (n + 1) x y d = octantPointsF n x y d := by
  intro n
  induction n with
  | zero => intro x y d out h; simp [circleLoopF] at h
  | succ n ih =>
    intro x y d out h
    by_cases hxy : x ≤ y
    · by_cases hd : d < 0
      · rw [circleLoopF_east n cx cy hxy hd, Option.map_eq_some'] at h
        obtain ⟨rest, hrest, rfl⟩ := h
        obtain ⟨h1, h2, h3⟩ := ih _ _ _ rest hrest
        refine ⟨?_, ?_, ?_⟩
        · rw [octantPointsF_east n hxy hd, List.length_append, length_symmetricPointF, h1,
            List.length_cons]
          ring
        · rw [circleLoopF_east (n + 1) cx cy hxy hd, h2]; rfl
        · rw [octantPointsF_east (n + 1) hxy hd, h3, octantPointsF_east n hxy hd]
      · have hd0 : 0 ≤ d := not_lt.mp hd
        rw [circleLoopF_south n cx cy hxy hd0, Option.map_eq_some'] at h
        obtain ⟨rest, hrest, rfl⟩ := h
        obtain ⟨h1, h2, h3⟩ := ih _ _ _ rest hrest
        refine ⟨?_, ?_, ?_⟩
        · rw [octantPointsF_south n hxy hd0, List.length_append, length_symmetricPointF, h1,
            List.length_cons]
          ring
        · rw [circleLoopF_south (n + 1) cx cy hxy hd0, h2]; rfl
        · rw [octantPointsF_south (n + 1) hxy hd0, h3, octantPointsF_south n hxy hd0]
    · have hlt : y < x := not_le.mp hxy
      rw [circleLoopF_exit n cx cy d hlt] at h
      cases h
      refine ⟨?_, circleLoopF_exit (n + 1) cx cy d hlt, ?_⟩
      · rw [octantPointsF_exit _ d hlt]; rfl
      · rw [octantPointsF_exit _ d hlt, octantPointsF_exit _ d hlt]

theorem circleLoopF_some_of_le (cx cy : ℚ) {n m : ℕ} (hnm : n ≤ m) {x y d : ℚ} {out : List ℚ}
    (h : circleLoopF n cx cy x y d = some out) :
    circleLoopF m cx cy x y d = some out ∧ octantPointsF m x y d = octantPointsF n x y d := by
  induction hnm with
  | refl => exact ⟨h, rfl⟩
  | step _ ih =>
    obtain ⟨-, h2, h3⟩ := circleLoopF_some cx cy _ x y d out ih.1
    exact ⟨h2, h3.trans ih.2⟩

theorem octantPointsF_mem_succ :
    ∀ (n : ℕ) (x y d : ℚ) (p : ℚ × ℚ), p ∈ octantPointsF n x y d →
      p ∈ octantPointsF (n + 1) x y d := by
  intro n
  induction n with
  | zero => intro x y d p h; simp [octantPointsF] at h
  | succ n ih =>
    intro x y d p h
    by_cases hxy : x ≤ y
    · by_cases hd : d < 0
      · rw [octantPointsF_east n hxy hd, List.mem_cons] at h
        rw [octantPointsF_east (n + 1) hxy hd, List.mem_cons]
        exact h.imp id (ih _ _ _ p)
      · have hd0 : 0 ≤ d := not_lt.mp hd
        rw [octantPointsF_south n hxy hd0, List.mem_cons] at h
        rw [octantPointsF_south (n + 1) hxy hd0, List.mem_cons]
        exact h.imp id (ih _ _ _ p)
    · rw [octantPointsF_exit _ d (not_le.mp hxy)] at h
      simp at h

theorem octantPointsF_mem_of_le {n m : ℕ} (hnm : n ≤ m) {x y d : ℚ} {p : ℚ × ℚ}
    (h : p ∈ octantPointsF n x y d) : p ∈ octantPointsF m x y d := by
  induction hnm with
  | refl => exact h
  | step _ ih => exact octantPointsF_mem_succ _ _ _ _ _ ih

/-! ## Radius 16777220 in binary32 -/

theorem ulp_of_log (q : ℚ) (e : ℤ) (he : Int.log 2 |q| = e) (hs : -126 ≤ e) :
    ulp q = (2 : ℚ) ^ (e - 23) := by
  unfold ulp; rw [he, max_eq_left hs]

theorem log_two_of_bounds (q : ℚ) (e : ℕ) (hpos : 0 < q) (h1 : (2 : ℚ) ^ e ≤ q)
    (h2 : q < (2 : ℚ) ^ (e + 1)) : Int.log 2 |q| = (e : ℤ) := by
  rw [abs_of_pos hpos]
  apply le_antisymm
  · have : Int.log 2 q < (e : ℤ) + 1 :=
      (Int.lt_zpow_iff_log_lt (by norm_num) hpos).mp (by
        have : q < ((2 : ℕ) : ℚ) ^ ((e : ℤ) + 1) := by
          rw [show ((e : ℤ) + 1) = ((e + 1 : ℕ) : ℤ) by push_cast; ring, zpow_natCast]
          exact_mod_cast h2
        exact this)
    omega
  · exact (Int.zpow_le_iff_le_log (by norm_num) hpos).mp (by
      rw [zpow_natCast]; exact_mod_cast h1)

/-- In binary32, `16777220 − 1` rounds back to `16777220`: `y--` has no effect. -/
theorem fl_pred_stuck : fl (16777220 - 1) = 16777220 := by
  have hu : ulp (16777220 - 1) = 2 := by
    rw [ulp_of_log _ 24 (log_two_of_bounds _ 24 (by norm_num) (by norm_num) (by norm_num))
      (by norm_num)]
    norm_num
  have hfloor : ⌊((16777220 : ℚ) - 1) / 2⌋ = 8388609 := by
    rw [Int.floor_eq_iff]; constructor <;> norm_num
  have hr : roundEven (((16777220 : ℚ) - 1) / 2) = 8388610 := by
    unfold roundEven
    simp only [hfloor]
    norm_num
  unfold fl
  rw [hu, hr]; norm_num

/-- In binary32, `16777216 + 1` rounds back to `16777216`: `x++` has no effect. -/
theorem fl_succ_stuck : fl (16777216 + 1) = 16777216 := by
  have hu : ulp (16777216 + 1) = 2 := by
    rw [ulp_of_log _ 24 (log_two_of_bounds _ 24 (by norm_num) (by norm_num) (by norm_num))
      (by norm_num)]
    norm_num
  have hfloor : ⌊((16777216 : ℚ) + 1) / 2⌋ = 8388608 := by
    rw [Int.floor_eq_iff]; constructor <;> norm_num
  have hr : roundEven (((16777216 : ℚ) + 1) / 2) = 8388608 := by
    unfold roundEven
    simp only [hfloor]
    norm_num
  unfold fl
  rw [hu, hr]; norm_num

/-- A counter `k ≤ 2 ^ 24` stays a natural number `≤ 2 ^ 24` after `x++`. -/
theorem fl_succ_counter (k : ℕ) (hk : k ≤ 16777216) :
    ∃ k' : ℕ, fl ((k : ℚ) + 1) = (k' : ℚ) ∧ k' ≤ 16777216 ∧ (k < 16777216 → k' = k + 1) := by
  rcases Nat.lt_or_ge k 16777216 with h | h
  · refine ⟨k + 1, ?_, h, fun _ => rfl⟩
    have := fl_int ((k : ℤ) + 1) (by rw [abs_le]; constructor <;> norm_num <;> omega)
    push_cast at this ⊢
    exact this
  · have hk' : k = 16777216 := le_antisymm hk h
    subst hk'
    exact ⟨16777216, by exact_mod_cast fl_succ_stuck, le_refl _, fun h => absurd h (lt_irrefl _)⟩

/-- With `y = 16777220` the binary32 loop never exits: `y--` leaves `y`
unchanged and `x` cannot pass `2 ^ 24`. -/
theorem circleLoopF_stuck (cx cy : ℚ) :
    ∀ (n k : ℕ) (d : ℚ), k ≤ 16777216 →
      circleLoopF n cx cy (k : ℚ) 16777220 d = none ∧
        (octantPointsF n (k : ℚ) 16777220 d).length = n := by
  intro n
  induction n with
  | zero => intro k d _; exact ⟨rfl, rfl⟩
  | succ n ih =>
    intro k d hk
    have hxy : (k : ℚ) ≤ 16777220 := by
      have : (k : ℚ) ≤ 16777216 := by exact_mod_cast hk
      linarith
    obtain ⟨k', hk', hk'le, -⟩ := fl_succ_counter k hk
    by_cases hd : d < 0
    · rw [circleLoopF_east n cx cy hxy hd, octantPointsF_east n hxy hd, hk']
      obtain ⟨h1, h2⟩ := ih k' (dEastF k d) hk'le
      rw [h1, List.length_cons, h2]
      exact ⟨rfl, rfl⟩
    · have hd0 : 0 ≤ d := not_lt.mp hd
      rw [circleLoopF_south n cx cy hxy hd0, octantPointsF_south n hxy hd0, hk', fl_pred_stuck]
      obtain ⟨h1, h2⟩ := ih k' (dSouthF k 16777220 d) hk'le
      rw [h1, List.length_cons, h2]
      exact ⟨rfl, rfl⟩

/-- With `y = 16777220` the binary32 loop visits every octant point
`(k, 16777220)` up to `k = 2 ^ 24`. -/
theorem octantPointsF_stuck_mem :
    ∀ (i n k : ℕ) (d : ℚ), k + i ≤ 16777216 → i < n →
      (((k + i : ℕ) : ℚ), (16777220 : ℚ)) ∈ octantPointsF n (k : ℚ) 16777220 d := by
  intro i
  induction i with
  | zero =>
    intro n k d hk hn
    obtain ⟨n', rfl⟩ : ∃ n', n = n' + 1 := ⟨n - 1, by omega⟩
    have hxy : (k : ℚ) ≤ 16777220 := by
      have : (k : ℚ) ≤ 16777216 := by exact_mod_cast hk
      linarith
    by_cases hd : d < 0
    · rw [octantPointsF_east n' hxy hd]; simp
    · rw [octantPointsF_south n' hxy (not_lt.mp hd)]; simp
  | succ i ih =>
    intro n k d hk hn
    obtain ⟨n', rfl⟩ : ∃ n', n = n' + 1 := ⟨n - 1, by omega⟩
    have hxy : (k : ℚ) ≤ 16777220 := by
      have : (k : ℚ) ≤ 16777216 := by exact_mod_cast (by omega : k ≤ 16777216)
      linarith
    obtain ⟨k', hk', -, hsucc⟩ := fl_succ_counter k (by omega)
    have hk1 : k' = k + 1 := hsucc (by omega)
    subst hk1
    have e : k + (i + 1) = (k + 1) + i := by omega
    by_cases hd : d < 0
    · rw [octantPointsF_east n' hxy hd, hk', e]
      exact List.mem_cons_of_mem _ (ih n' (k + 1) _ (by omega) (by omega))
    · rw [octantPointsF_south n' hxy (not_lt.mp hd), hk', fl_pred_stuck, e]
      exact List.mem_cons_of_mem _ (ih n' (k + 1) _ (by omega) (by omega))

/-! ## Termination of the binary32 loop below radius 2 ^ 24 -/

/-- From a state with counter `k` and `y ≤ r < 2 ^ 24`, the binary32 loop runs
at most `t` more iterations, where `k + t ≥ ⌊r⌋ + 1`, and then exits. -/
theorem circleLoopF_halts (cx cy r : ℚ) (hr0 : 0 ≤ r) (hr : r < 16777216) :
    ∀ (t k : ℕ) (y d : ℚ), ⌊r⌋.toNat + 1 ≤ k + t → k ≤ ⌊r⌋.toNat + 1 → y ≤ r →
      (∀ n, (octantPointsF n (k : ℚ) y d).length ≤ t) ∧
        ∃ out, circleLoopF (t + 1) cx cy (k : ℚ) y d = some out := by
  have hfl0 : (0 : ℤ) ≤ ⌊r⌋ := Int.floor_nonneg.mpr hr0
  have hflr : ⌊r⌋ < 16777216 := Int.floor_lt.mpr (by exact_mod_cast hr)
  have hcast : ((⌊r⌋.toNat : ℕ) : ℤ) = ⌊r⌋ := Int.toNat_of_nonneg hfl0
  have hgt : ∀ k : ℕ, ⌊r⌋.toNat + 1 ≤ k → r < (k : ℚ) := by
    intro k hk
    have h1 : r < (⌊r⌋ : ℚ) + 1 := Int.lt_floor_add_one r
    have h2 : (⌊r⌋ : ℚ) + 1 ≤ (k : ℚ) := by
      have : ⌊r⌋ + 1 ≤ (k : ℤ) := by omega
      exact_mod_cast this
    linarith
  have hle : ∀ k : ℕ, (k : ℚ) ≤ r → k ≤ ⌊r⌋.toNat := by
    intro k hk
    have : (k : ℤ) ≤ ⌊r⌋ := Int.le_floor.mpr (by exact_mod_cast hk)
    omega
  intro t
  induction t with
  | zero =>
    intro k y d hkt _ hy
    have hlt : y < (k : ℚ) := lt_of_le_of_lt hy (hgt k (by omega))
    refine ⟨fun n => ?_, [], circleLoopF_exit 0 cx cy d hlt⟩
    rw [octantPointsF_exit n d hlt]; simp
  | succ t ih =>
    intro k y d hkt hk hy
    by_cases hxy : (k : ℚ) ≤ y
    · have hkr : k ≤ ⌊r⌋.toNat := hle k (le_trans hxy hy)
      have hsucc : fl ((k : ℚ) + 1) = ((k + 1 : ℕ) : ℚ) := by
        have := fl_int ((k : ℤ) + 1) (by rw [abs_le]; constructor <;> norm_num <;> omega)
        push_cast at this ⊢
        exact this
      have hy0 : (0 : ℚ) ≤ y := le_trans (Nat.cast_nonneg k) hxy
      have hpred : fl (y - 1) ≤ r := by
        have := fl_le_add_one (y - 1) (by rw [abs_le]; constructor <;> linarith)
        linarith
      by_cases hd : d < 0
      · obtain ⟨h1, out, h2⟩ := ih (k + 1) y (dEastF k d) (by omega) (by omega) hy
        refine ⟨fun n => ?_, symmetricPointF cx cy k y ++ out, ?_⟩
        · cases n with
          | zero => simp [octantPointsF]
          | succ n =>
            rw [octantPointsF_east n hxy hd, hsucc, List.length_cons]
            exact Nat.succ_le_succ (h1 n)
        · rw [circleLoopF_east (t + 1) cx cy hxy hd, hsucc, h2]; rfl
      · have hd0 : 0 ≤ d := not_lt.mp hd
        obtain ⟨h1, out, h2⟩ :=
          ih (k + 1) (fl (y - 1)) (dSouthF k y d) (by omega) (by omega) hpred
        refine ⟨fun n => ?_, symmetricPointF cx cy k y ++ out, ?_⟩
        · cases n with
          | zero => simp [octantPointsF]
          | succ n =>
            rw [octantPointsF_south n hxy hd0, hsucc, List.length_cons]
            exact Nat.succ_le_succ (h1 n)
        · rw [circleLoopF_south (t + 1) cx cy hxy hd0, hsucc, h2]; rfl
    · have hlt : y < (k : ℚ) := not_le.mp hxy
      refine ⟨fun n => ?_, [], circleLoopF_exit (t + 1) cx cy d hlt⟩
      rw [octantPointsF_exit n d hlt]; simp

theorem length_octantPointsF_pos (n : ℕ) {r : ℚ} (d : ℚ) (hr : 0 ≤ r) :
    1 ≤ (octantPointsF (n + 1) 0 r d).length := by
  by_cases hd : d < 0
  · rw [octantPointsF_east n hr hd]; simp
  · rw [octantPointsF_south n hr (not_lt.mp hd)]; simp

/-- Binary32 `bresenhamCircle` for `0 ≤ radius < 2 ^ 24`: the loop exits
within `⌊radius⌋ + 1` iterations with a non-empty output. -/
theorem bresenhamCircleF_halts (cx cy r : ℚ) (hr0 : 0 ≤ r) (hr : r < 16777216) :
    ∃ out : List ℚ,
      (∀ n, ⌊r⌋.toNat + 2 ≤ n → bresenhamCircleF n cx cy r = some out) ∧ out ≠ [] ∧
        out.length = 24 * (octantPointsF (⌊r⌋.toNat + 2) 0 r (d0F r)).length ∧
        (∀ n, (octantPointsF n 0 r (d0F r)).length ≤ ⌊r⌋.toNat + 1) ∧
        (∀ n, 1 ≤ (octantPointsF (n + 1) 0 r (d0F r)).length) := by
  obtain ⟨h1, out, h2⟩ := circleLoopF_halts cx cy r hr0 hr (⌊r⌋.toNat + 1) 0 r (d0F r)
    (by omega) (by omega) (le_refl r)
  rw [Nat.cast_zero] at h1 h2
  obtain ⟨hlen, -, -⟩ := circleLoopF_some cx cy _ _ _ _ out h2
  refine ⟨out, fun n hn => (circleLoopF_some_of_le cx cy hn h2).1, ?_, hlen, h1,
    fun n => length_octantPointsF_pos n _ hr0⟩
  intro hnil
  have hpos : 1 ≤ (octantPointsF (⌊r⌋.toNat + 2) 0 r (d0F r)).length :=
    length_octantPointsF_pos (⌊r⌋.toNat + 1) (d0F r) hr0
  have hzero : out.length = 0 := by rw [hnil]; rfl
  have hlen' : out.length = 24 * (octantPointsF (⌊r⌋.toNat + 2) 0 r (d0F r)).length := hlen
  omega

/-! ## Binary32 agrees with exact arithmetic on small integers -/

theorem fl_int_of (q : ℚ) (n : ℤ) (hq : q = (n : ℚ)) (hb : |q| ≤ 16777216) : fl q = q := by
  rw [hq]
  apply fl_int
  have : |(n : ℚ)| ≤ ((16777216 : ℤ) : ℚ) := by rw [← hq]; exact_mod_cast hb
  rw [← Int.cast_abs] at this
  have h := Int.cast_le.mp this
  norm_num
  exact h

theorem fl_half_of (q : ℚ) (m : ℤ) (hq : q = (m : ℚ) / 2) (hb : |q| < 8388608) : fl q = q := by
  rw [hq]
  apply fl_half
  have h2 : |(m : ℚ)| < ((16777216 : ℤ) : ℚ) := by
    have hm : (m : ℚ) = 2 * q := by rw [hq]; ring
    rw [hm, abs_mul, abs_two]
    push_cast
    linarith
  rw [← Int.cast_abs] at h2
  have h := Int.cast_lt.mp h2
  norm_num
  exact h

theorem d0F_exact (r : ℤ) (hr : |(r : ℚ)| ≤ 1048576) :
    d0F (r : ℚ) = (3 - 2 * (r : ℚ)) / 2 := by
  obtain ⟨h1, h2⟩ := abs_le.mp hr
  have e1 : fl (2 * (r : ℚ)) = 2 * (r : ℚ) :=
    fl_int_of _ (2 * r) (by push_cast; ring) (by rw [abs_le]; constructor <;> linarith)
  have e2 : fl (3 - 2 * (r : ℚ)) = 3 - 2 * (r : ℚ) :=
    fl_int_of _ (3 - 2 * r) (by push_cast; ring) (by rw [abs_le]; constructor <;> linarith)
  have e3 : fl ((3 - 2 * (r : ℚ)) / 2) = (3 - 2 * (r : ℚ)) / 2 :=
    fl_half_of _ (3 - 2 * r) (by push_cast; ring) (by rw [abs_lt]; constructor <;> linarith)
  unfold d0F
  rw [e1, e2, e3]

theorem dEastF_exact (x d : ℚ) (a m : ℤ) (hx : x = (a : ℚ)) (hd : d = (m : ℚ) / 2)
    (hx0 : 0 ≤ x) (hxR : x ≤ 1048576) (hdB : |d| ≤ 4194304) :
    dEastF x d = d + (4 * x + 6) / 2 := by
  obtain ⟨h1, h2⟩ := abs_le.mp hdB
  have e1 : fl (4 * x) = 4 * x :=
    fl_int_of _ (4 * a) (by rw [hx]; push_cast; ring) (by rw [abs_le]; constructor <;> linarith)
  have e2 : fl (4 * x + 6) = 4 * x + 6 :=
    fl_int_of _ (4 * a + 6) (by rw [hx]; push_cast; ring)
      (by rw [abs_le]; constructor <;> linarith)
  have e3 : fl ((4 * x + 6) / 2) = (4 * x + 6) / 2 :=
    fl_int_of _ (2 * a + 3) (by rw [hx]; push_cast; ring)
      (by rw [abs_le]; constructor <;> linarith)
  have e4 : fl (d + (4 * x + 6) / 2) = d + (4 * x + 6) / 2 :=
    fl_half_of _ (m + 4 * a + 6) (by rw [hx, hd]; push_cast; ring)
      (by rw [abs_lt]; constructor <;> linarith)
  unfold dEastF
  rw [e1, e2, e3, e4]

theorem dSouthF_exact (x y d : ℚ) (a b m : ℤ) (hx : x = (a : ℚ)) (hy : y = (b : ℚ))
    (hd : d = (m : ℚ) / 2) (hx0 : 0 ≤ x) (hxy : x ≤ y) (hyR : y ≤ 1048576)
    (hdB : |d| ≤ 4194304) :
    dSouthF x y d = d + (4 * (x - y) + 10) / 2 := by
  obtain ⟨h1, h2⟩ := abs_le.mp hdB
  have e0 : fl (x - y) = x - y :=
    fl_int_of _ (a - b) (by rw [hx, hy]; push_cast; ring)
      (by rw [abs_le]; constructor <;> linarith)
  have e1 : fl (4 * (x - y)) = 4 * (x - y) :=
    fl_int_of _ (4 * (a - b)) (by rw [hx, hy]; push_cast; ring)
      (by rw [abs_le]; constructor <;> linarith)
  have e2 : fl (4 * (x - y) + 10) = 4 * (x - y) + 10 :=
    fl_int_of _ (4 * (a - b) + 10) (by rw [hx, hy]; push_cast; ring)
      (by rw [abs_le]; constructor <;> linarith)
  have e3 : fl ((4 * (x - y) + 10) / 2) = (4 * (x - y) + 10) / 2 :=
    fl_int_of _ (2 * (a - b) + 5) (by rw [hx, hy]; push_cast; ring)
      (by rw [abs_le]; constructor <;> linarith)
  have e4 : fl (d + (4 * (x - y) + 10) / 2) = d + (4 * (x - y) + 10) / 2 :=
    fl_half_of _ (m + 4 * (a - b) + 10) (by rw [hx, hy, hd]; push_cast; ring)
      (by rw [abs_lt]; constructor <;> linarith)
  unfold dSouthF
  rw [e0, e1, e2, e3, e4]

/-- A loop state that passes the loop test has a decision variable of
magnitude at most `2 · radius + 2`. -/
theorem circleInv_d_bound {r x y d : ℚ} (h : circleInv r x y d) (hxy : x ≤ y) :
    |d| ≤ 2 * r + 2 := by
  obtain ⟨hx, hy, hdv, hJ⟩ := h
  obtain ⟨hlo, hhi⟩ := hJ hxy
  rw [abs_le]
  constructor
  · rw [hdv]; nlinarith
  · rcases le_max_iff.mp hhi with h0 | h1
    · rw [hdv]; nlinarith
    · rw [hdv]; nlinarith

/-- For an integer radius `0 ≤ r ≤ 2 ^ 20` every binary32 operation of the
loop is exact: run for enough iterations, the binary32 loop visits exactly
the octant points of the exact loop. -/
theorem octantPointsF_eq_exact (r : ℤ) (hr : (r : ℚ) ≤ 1048576) :
    ∀ x y d : ℚ, circleInv (r : ℚ) x y d → (∃ a b : ℤ, x = (a : ℚ) ∧ y = (b : ℚ)) →
      ∀ n : ℕ, (⌊y - x⌋ + 1).toNat ≤ n → octantPointsF n x y d = octantPoints x y d := by
  intro x y d
  induction x, y, d using octantPoints.induct with
  | case1 x y d hxy ihE ihS =>
    intro hinv hint n hn
    obtain ⟨a, b, ha, hb⟩ := hint
    have h0 : (0 : ℤ) ≤ ⌊y - x⌋ := Int.floor_nonneg.mpr (by linarith)
    have hE : ⌊y - (x + 1)⌋ = ⌊y - x⌋ - 1 := by
      rw [show y - (x + 1) = (y - x) - 1 by ring]; exact Int.floor_sub_one _
    have hS : ⌊y - 1 - (x + 1)⌋ = ⌊y - x⌋ - 2 := by
      rw [show y - 1 - (x + 1) = (y - x) - ((2 : ℕ) : ℚ) by push_cast; ring]
      rw [Int.floor_sub_nat]; simp
    obtain ⟨n', rfl⟩ : ∃ n', n = n' + 1 := ⟨n - 1, by omega⟩
    have hdB := circleInv_d_bound hinv hxy
    obtain ⟨hx0, hyr, hdv, -⟩ := id hinv
    have hdB' : |d| ≤ 4194304 := le_trans hdB (by linarith)
    have hdm : d = ((2 * ((a + 1) ^ 2 + b ^ 2 - b - r ^ 2) + 1 : ℤ) : ℚ) / 2 := by
      rw [hdv, ha, hb]; push_cast; ring
    have hx1 : fl (x + 1) = x + 1 :=
      fl_int_of _ (a + 1) (by rw [ha]; push_cast; ring)
        (by rw [abs_le]; constructor <;> linarith)
    by_cases hd : d < 0
    · rw [octantPointsF_east n' hxy hd, octantPoints_east hxy hd, hx1,
        dEastF_exact x d a _ ha hdm hx0 (by linarith) hdB']
      rw [ihE (circleInv_east (r : ℚ) x y d hxy hd hinv)
        ⟨a + 1, b, by rw [ha]; push_cast; ring, hb⟩ n' (by rw [hE]; omega)]
    · have hd0 : 0 ≤ d := not_lt.mp hd
      have hy1 : fl (y - 1) = y - 1 :=
        fl_int_of _ (b - 1) (by rw [hb]; push_cast; ring)
          (by rw [abs_le]; constructor <;> linarith)
      rw [octantPointsF_south n' hxy hd0, octantPoints_south hxy hd0, hx1, hy1,
        dSouthF_exact x y d a b _ ha hb hdm hx0 hxy (by linarith) hdB']
      rw [ihS (circleInv_south (r : ℚ) x y d hxy hd0 hinv)
        ⟨a + 1, b - 1, by rw [ha]; push_cast; ring, by rw [hb]; push_cast; ring⟩ n'
        (by rw [hS]; omega)]
  | case2 x y d hxy =>
    intro _ _ n _
    rw [octantPointsF_exit n d (not_le.mp hxy), octantPoints_exit d (not_le.mp hxy)]

theorem symmetricNativeF_exact (cx cy a b : ℤ) (hcx : |(cx : ℚ)| ≤ 4194304)
    (hcy : |(cy : ℚ)| ≤ 4194304) (ha : |(a : ℚ)| ≤ 1048576) (hb : |(b : ℚ)| ≤ 1048576) :
    symmetricNativeF (cx : ℚ) (cy : ℚ) (a : ℚ) (b : ℚ) =
      (symmetricOffsets (a : ℚ) (b : ℚ)).map fun o => ((cx : ℚ) + o.1, (cy : ℚ) + o.2) := by
  obtain ⟨hx1, hx2⟩ := abs_le.mp hcx
  obtain ⟨hy1, hy2⟩ := abs_le.mp hcy
  obtain ⟨ha1, ha2⟩ := abs_le.mp ha
  obtain ⟨hb1, hb2⟩ := abs_le.mp hb
  have e1 : fl ((cx : ℚ) + (a : ℚ)) = (cx : ℚ) + (a : ℚ) :=
    fl_int_of _ (cx + a) (by push_cast; ring) (by rw [abs_le]; constructor <;> linarith)
  have e2 : fl ((cx : ℚ) + -(a : ℚ)) = (cx : ℚ) + -(a : ℚ) :=
    fl_int_of _ (cx - a) (by push_cast; ring) (by rw [abs_le]; constructor <;> linarith)
  have e3 : fl ((cx : ℚ) + (b : ℚ)) = (cx : ℚ) + (b : ℚ) :=
    fl_int_of _ (cx + b) (by push_cast; ring) (by rw [abs_le]; constructor <;> linarith)
  have e4 : fl ((cx : ℚ) + -(b : ℚ)) = (cx : ℚ) + -(b : ℚ) :=
    fl_int_of _ (cx - b) (by push_cast; ring) (by rw [abs_le]; constructor <;> linarith)
  have e5 : fl ((cy : ℚ) + (a : ℚ)) = (cy : ℚ) + (a : ℚ) :=
    fl_int_of _ (cy + a) (by push_cast; ring) (by rw [abs_le]; constructor <;> linarith)
  have e6 : fl ((cy : ℚ) + -(a : ℚ)) = (cy : ℚ) + -(a : ℚ) :=
    fl_int_of _ (cy - a) (by push_cast; ring) (by rw [abs_le]; constructor <;> linarith)
  have e7 : fl ((cy : ℚ) + (b : ℚ)) = (cy : ℚ) + (b : ℚ) :=
    fl_int_of _ (cy + b) (by push_cast; ring) (by rw [abs_le]; constructor <;> linarith)
  have e8 : fl ((cy : ℚ) + -(b : ℚ)) = (cy : ℚ) + -(b : ℚ) :=
    fl_int_of _ (cy - b) (by push_cast; ring) (by rw [abs_le]; constructor <;> linarith)
  simp only [symmetricNativeF, symmetricOffsets, List.zip_cons_cons, List.zip_nil_right,
    List.map_cons, List.map_nil, e1, e2, e3, e4, e5, e6, e7, e8]

/-- For an integer radius `0 ≤ r ≤ 2 ^ 20`, the octant points of the binary32
loop, run for `r + 1` iterations or more, are those of the exact loop. -/
theorem octantPointsF_radius_int (r : ℤ) (hr0 : 0 ≤ r) (hr : r ≤ 1048576) (n : ℕ)
    (hn : r.toNat + 1 ≤ n) :
    octantPointsF n 0 (r : ℚ) (d0F (r : ℚ)) =
      octantPoints 0 (r : ℚ) ((3 - 2 * (r : ℚ)) / 2) := by
  have hrq : (r : ℚ) ≤ 1048576 := by exact_mod_cast hr
  have hrq0 : (0 : ℚ) ≤ (r : ℚ) := by exact_mod_cast hr0
  rw [d0F_exact r (by rw [abs_le]; constructor <;> linarith)]
  refine octantPointsF_eq_exact r hrq 0 (r : ℚ) _ (circleInv_init (r : ℚ))
    ⟨0, r, by simp, rfl⟩ n ?_
  rw [sub_zero, Int.floor_intCast]
  omega

/-- For an integer radius `0 ≤ r ≤ 2 ^ 20`, every octant point the binary32
loop visits, in any number of iterations, is an octant point of the exact
loop. -/
theorem octantPointsF_mem_exact (r : ℤ) (hr0 : 0 ≤ r) (hr : r ≤ 1048576) (n : ℕ) (p : ℚ × ℚ)
    (h : p ∈ octantPointsF n 0 (r : ℚ) (d0F (r : ℚ))) :
    p ∈ octantPoints 0 (r : ℚ) ((3 - 2 * (r : ℚ)) / 2) := by
  rw [← octantPointsF_radius_int r hr0 hr (max n (r.toNat + 1)) (le_max_right _ _)]
  exact octantPointsF_mem_of_le (le_max_left _ _) h

/-- For an integer centre and an integer radius within the exact range, every
native point pushed by binary32 `bresenhamCircle` is the centre plus one of
the eight symmetric offsets of an octant point of the exact loop. -/
theorem nativePointsF_mem_exact (cx cy r : ℤ) (hr0 : 0 ≤ r) (hr : r ≤ 1048576)
    (hcx : |cx| ≤ 4194304) (hcy : |cy| ≤ 4194304) (n : ℕ) (q : ℚ × ℚ)
    (h : q ∈ nativePointsF n (cx : ℚ) (cy : ℚ) (r : ℚ)) :
    ∃ p ∈ octantPoints 0 (r : ℚ) ((3 - 2 * (r : ℚ)) / 2),
      (q.1 - (cx : ℚ), q.2 - (cy : ℚ)) ∈ symmetricOffsets p.1 p.2 := by
  unfold nativePointsF at h
  rw [List.mem_flatMap] at h
  obtain ⟨p, hp, hq⟩ := h
  have hp' := octantPointsF_mem_exact r hr0 hr n p hp
  refine ⟨p, hp', ?_⟩
  obtain ⟨h0, hle, hpr, -, -⟩ := octantPoints_circleInv (r : ℚ) p hp'
  obtain ⟨a, b, ha, hb⟩ := octantPoints_int r p hp'
  have hrq : (r : ℚ) ≤ 1048576 := by exact_mod_cast hr
  have hcxq : |(cx : ℚ)| ≤ 4194304 := by
    have : ((|cx| : ℤ) : ℚ) ≤ ((4194304 : ℤ) : ℚ) := Int.cast_le.mpr hcx
    rw [Int.cast_abs] at this; exact_mod_cast this
  have hcyq : |(cy : ℚ)| ≤ 4194304 := by
    have : ((|cy| : ℤ) : ℚ) ≤ ((4194304 : ℤ) : ℚ) := Int.cast_le.mpr hcy
    rw [Int.cast_abs] at this; exact_mod_cast this
  obtain ⟨x, y⟩ := p
  simp only at ha hb hq h0 hle hpr ⊢
  subst ha hb
  rw [symmetricNativeF_exact cx cy a b hcxq hcyq
    (by rw [abs_le]; constructor <;> linarith) (by rw [abs_le]; constructor <;> linarith),
    List.mem_map] at hq
  obtain ⟨o, ho, rfl⟩ := hq
  have : ((cx : ℚ) + o.1 - (cx : ℚ), (cy : ℚ) + o.2 - (cy : ℚ)) = o := by
    ext <;> simp
  rw [this]; exact ho

theorem nativePointsF_two_five : ((2 : ℚ), (5 : ℚ)) ∈ nativePointsF 6 0 0 5 := by
  have h1 := octantPointsF_radius_int 5 (by norm_num) (by norm_num) 6 (by decide)
  have h2 := symmetricNativeF_exact 0 0 2 5 (by norm_num) (by norm_num) (by norm_num)
    (by norm_num)
  have h3 := octantPoints_radius_five
  norm_num at h1 h2 h3
  unfold nativePointsF
  rw [h1, h3, List.mem_flatMap]
  refine ⟨(2, 5), by simp, ?_⟩
  rw [h2]
  simp [symmetricOffsets]

/-! ## Claims about the circle generator -/

/-- For an integer radius the radial error of every octant point of the exact
loop is at most the radius in absolute value. -/
theorem octantPoints_error_int (n : ℤ) :
    ∀ p ∈ octantPoints 0 (n : ℚ) ((3 - 2 * (n : ℚ)) / 2),
      |p.1 ^ 2 + p.2 ^ 2 - (n : ℚ) ^ 2| ≤ (n : ℚ) := by
  intro p hp
  obtain ⟨h0, hle, hr, hlo, hhi⟩ := octantPoints_circleInv (n : ℚ) p hp
  obtain ⟨a, b, ha, hb⟩ := octantPoints_int n p hp
  obtain ⟨x, y⟩ := p
  simp only at ha hb h0 hle hr hlo hhi ⊢
  subst ha hb
  have hlo' : -2 * b - 1 ≤ 2 * (a ^ 2 + b ^ 2 - n ^ 2) := by
    have : -2 * (b : ℚ) - 1 ≤ 2 * ((a : ℚ) ^ 2 + (b : ℚ) ^ 2 - (n : ℚ) ^ 2) := by linarith
    exact_mod_cast this
  have hbn : b ≤ n := by exact_mod_cast hr
  have hab : a ≤ b := by exact_mod_cast hle
  have ha0 : 0 ≤ a := by exact_mod_cast h0
  have hhi' : a ^ 2 + b ^ 2 - n ^ 2 ≤ 0 ∨ 2 * (a ^ 2 + b ^ 2 - n ^ 2) ≤ 2 * b - 1 := by
    rcases le_max_iff.mp hhi with h | h
    · left; exact_mod_cast h
    · right
      have : 2 * ((a : ℚ) ^ 2 + (b : ℚ) ^ 2 - (n : ℚ) ^ 2) ≤ 2 * (b : ℚ) - 1 := by linarith
      exact_mod_cast this
  have key : |a ^ 2 + b ^ 2 - n ^ 2| ≤ n := by
    rw [abs_le]
    constructor
    · omega
    · rcases hhi' with h | h <;> omega
  exact_mod_cast key

/-- For an integer radius `r ≥ 1` every octant point of the exact loop lies
in the octant `0 ≤ x ≤ y ≤ r` and within one unit of the circle. -/
theorem octantPoints_band (r : ℤ) (hr : 1 ≤ r) :
    ∀ p ∈ octantPoints 0 (r : ℚ) ((3 - 2 * (r : ℚ)) / 2),
      0 ≤ p.1 ∧ p.1 ≤ p.2 ∧ p.2 ≤ (r : ℚ) ∧
        ((r : ℚ) - 1) ^ 2 ≤ p.1 ^ 2 + p.2 ^ 2 ∧ p.1 ^ 2 + p.2 ^ 2 ≤ ((r : ℚ) + 1) ^ 2 := by
  intro p hp
  obtain ⟨h0, hle, hpr, hlo, hhi⟩ := octantPoints_circleInv (r : ℚ) p hp
  obtain ⟨a, b, ha, hb⟩ := octantPoints_int r p hp
  obtain ⟨x, y⟩ := p
  simp only at ha hb h0 hle hpr hlo hhi ⊢
  subst ha hb
  refine ⟨h0, hle, hpr, ?_, ?_⟩
  · have hlo' : -2 * b - 1 ≤ 2 * (a ^ 2 + b ^ 2 - r ^ 2) := by
      have : -2 * (b : ℚ) - 1 ≤ 2 * ((a : ℚ) ^ 2 + (b : ℚ) ^ 2 - (r : ℚ) ^ 2) := by linarith
      exact_mod_cast this
    have hbr : b ≤ r := by exact_mod_cast hpr
    have key : (r - 1) ^ 2 ≤ a ^ 2 + b ^ 2 := by nlinarith
    exact_mod_cast key
  · have hr' : (1 : ℚ) ≤ (r : ℚ) := by exact_mod_cast hr
    rcases le_max_iff.mp hhi with h | h <;> nlinarith

theorem octantPointsF_radius_five :
    octantPointsF 6 0 5 (d0F 5) = [(0, 5), (1, 5), (2, 5), (3, 4)] := by
  have h1 := octantPointsF_radius_int 5 (by norm_num) (by norm_num) 6 (by decide)
  have h3 := octantPoints_radius_five
  norm_num at h1 h3
  rw [h1, h3]

/-- C1, as stated, fails: with centre (0,0) and radius 5 the generator emits
the point (2,5), in exact arithmetic and in binary32 alike, whose squared
distance from the centre is 29, four away from the squared radius 25. -/
theorem radial_tolerance_one_fails :
    emits 0 0 5 2 5 ∧ ((2 : ℚ), (5 : ℚ)) ∈ nativePointsF 6 0 0 5 ∧
      ¬ |round (((2 : ℚ) - 0) ^ 2 + ((5 : ℚ) - 0) ^ 2) - round ((5 : ℚ) ^ 2)| ≤ 1 := by
  refine ⟨emits_two_five, nativePointsF_two_five, ?_⟩
  · have h1 : ((2 : ℚ) - 0) ^ 2 + ((5 : ℚ) - 0) ^ 2 = ((29 : ℕ) : ℚ) := by norm_num
    have h2 : (5 : ℚ) ^ 2 = ((25 : ℕ) : ℚ) := by norm_num
    rw [h1, h2, round_natCast, round_natCast]
    decide

/-- C1, amended.  With arithmetic read exactly over the rationals: for every
centre and every radius, every point (px, py) emitted by `bresenhamCircle`
(native coordinates, before `toNDC`) has a squared distance from the centre
within `radius + 1/2` of `radius²`, hence the two rounded values differ by at
most `radius + 3/2`, and for an integer radius the squared distance differs
from `radius²` by at most `radius`.  In binary32 arithmetic: for every integer
centre with |cx|, |cy| ≤ 2²² and every integer radius 0 ≤ r ≤ 2²⁰, every
native point pushed by `bresenhamCircle` has a squared distance from the
centre within `r` of `r²`. -/
theorem radial_error_bound :
    (∀ cx cy r px py : ℚ, emits cx cy r px py →
      |(px - cx) ^ 2 + (py - cy) ^ 2 - r ^ 2| ≤ r + 1 / 2 ∧
        |((round ((px - cx) ^ 2 + (py - cy) ^ 2) : ℤ) : ℚ) - ((round (r ^ 2) : ℤ) : ℚ)|
          ≤ r + 3 / 2 ∧
        (∀ n : ℤ, r = (n : ℚ) → |(px - cx) ^ 2 + (py - cy) ^ 2 - r ^ 2| ≤ r)) ∧
      (∀ cx cy r : ℤ, 0 ≤ r → r ≤ 1048576 → |cx| ≤ 4194304 → |cy| ≤ 4194304 →
        ∀ (n : ℕ) (q : ℚ × ℚ), q ∈ nativePointsF n (cx : ℚ) (cy : ℚ) (r : ℚ) →
          |(q.1 - (cx : ℚ)) ^ 2 + (q.2 - (cy : ℚ)) ^ 2 - (r : ℚ) ^ 2| ≤ (r : ℚ)) := by
  constructor
  · intro cx cy r px py h
    rw [emits_iff] at h
    obtain ⟨p, hp, hoff⟩ := h
    have hsq : (px - cx) ^ 2 + (py - cy) ^ 2 = p.1 ^ 2 + p.2 ^ 2 := symmetricOffsets_sq hoff
    have herr := octantPoints_error r p hp
    rw [← hsq] at herr
    refine ⟨herr, ?_, ?_⟩
    · have hA := abs_sub_round ((px - cx) ^ 2 + (py - cy) ^ 2)
      have hB := abs_sub_round (r ^ 2)
      rw [abs_le] at hA hB herr ⊢
      constructor <;> linarith [hA.1, hA.2, hB.1, hB.2, herr.1, herr.2]
    · rintro n rfl
      rw [hsq]
      exact octantPoints_error_int n p hp
  · intro cx cy r hr0 hr hcx hcy n q hq
    obtain ⟨p, hp, hoff⟩ := nativePointsF_mem_exact cx cy r hr0 hr hcx hcy n q hq
    have hsq : (q.1 - (cx : ℚ)) ^ 2 + (q.2 - (cy : ℚ)) ^ 2 = p.1 ^ 2 + p.2 ^ 2 :=
      symmetricOffsets_sq hoff
    rw [hsq]
    exact octantPoints_error_int r p hp

/-- The amended C1 at centre (0,0), radius 5 and the emitted point (2,5), in
exact arithmetic and in binary32. -/
theorem radial_error_bound_witness :
    (emits 0 0 5 2 5 ∧ |((2 : ℚ) - 0) ^ 2 + ((5 : ℚ) - 0) ^ 2 - (5 : ℚ) ^ 2| ≤ 5 + 1 / 2) ∧
      (((2 : ℚ), (5 : ℚ)) ∈ nativePointsF 6 0 0 5 ∧
        |((2 : ℚ) - 0) ^ 2 + ((5 : ℚ) - 0) ^ 2 - (5 : ℚ) ^ 2| ≤ 5) :=
  ⟨⟨emits_two_five, (radial_error_bound.1 0 0 5 2 5 emits_two_five).1⟩,
    nativePointsF_two_five, by
      have h := radial_error_bound.2 0 0 5 (by norm_num) (by norm_num) (by norm_num)
        (by norm_num) 6 (2, 5) (by simpa using nativePointsF_two_five)
      simpa using h⟩

/-- C2: the offsets of the points emitted by `bresenhamCircle` from the centre
are closed under the reflections (x,y) ↦ (−x,y), (x,y) ↦ (x,−y) and
(x,y) ↦ (y,x), for every centre and radius; and with centre (0,0) and radius 5
the output contains the points (5,0) and (0,5). -/
theorem offsets_reflection_closed :
    (∀ cx cy r a b : ℚ, emits cx cy r (cx + a) (cy + b) →
      emits cx cy r (cx + -a) (cy + b) ∧ emits cx cy r (cx + a) (cy + -b) ∧
        emits cx cy r (cx + b) (cy + a)) ∧
      emits 0 0 5 5 0 ∧ emits 0 0 5 0 5 := by
  refine ⟨?_, ?_, ?_⟩
  · intro cx cy r a b h
    simp only [emits_iff, add_sub_cancel_left] at h ⊢
    obtain ⟨p, hp, hoff⟩ := h
    obtain ⟨h1, h2, h3⟩ := symmetricOffsets_closed hoff
    exact ⟨⟨p, hp, h1⟩, ⟨p, hp, h2⟩, ⟨p, hp, h3⟩⟩
  · rw [emits_iff, octantPoints_radius_five]
    exact ⟨(0, 5), by simp, by simp [symmetricOffsets]⟩
  · rw [emits_iff, octantPoints_radius_five]
    exact ⟨(0, 5), by simp, by simp [symmetricOffsets]⟩

/-- C2 at centre (0,0), radius 5 and the emitted offset (2,5): the three
reflected points (−2,5), (2,−5) and (5,2) are emitted as well. -/
theorem offsets_reflection_closed_witness :
    emits 0 0 5 (0 + 2) (0 + 5) ∧
      (emits 0 0 5 (0 + -2) (0 + 5) ∧ emits 0 0 5 (0 + 2) (0 + -5) ∧
        emits 0 0 5 (0 + 5) (0 + 2)) :=
  have h : emits 0 0 5 (0 + 2) (0 + 5) := by
    rw [zero_add, zero_add]; exact emits_two_five
  ⟨h, offsets_reflection_closed.1 0 0 5 2 5 h⟩

/-- C3: with radius 0 the loop of `bresenhamCircle` runs exactly once, at the
octant point (0,0), and the output is exactly 8 points, each the image of the
centre under `toNDC`; in native coordinates the only emitted point is the
centre. -/
theorem radius_zero_eight_centres (cx cy : ℚ) :
    octantPoints 0 0 ((3 - 2 * 0) / 2) = [(0, 0)] ∧
      vertices (bresenhamCircle cx cy 0) = List.replicate 8 (toNDC cx cy) ∧
      (bresenhamCircle cx cy 0).length = 3 * 8 ∧
      (∀ px py : ℚ, emits cx cy 0 px py ↔ (px, py) = (cx, cy)) := by
  have hoct : octantPoints 0 0 ((3 - 2 * 0) / 2) = [(0, 0)] := by
    norm_num [octantPoints_exit, octantPoints_south]
  refine ⟨hoct, ?_, ?_, ?_⟩
  · unfold bresenhamCircle
    rw [vertices_circleLoop, hoct]
    simp [symmetricOffsets, List.replicate]
  · unfold bresenhamCircle
    rw [length_circleLoop, hoct]
    rfl
  · intro px py
    rw [emits_iff, hoct]
    simp only [List.mem_singleton, exists_eq_left, symmetricOffsets, neg_zero, List.mem_cons,
      List.not_mem_nil, or_false, or_self, Prod.mk.injEq]
    constructor
    · rintro ⟨h1, h2⟩; exact ⟨by linarith, by linarith⟩
    · rintro ⟨h1, h2⟩; exact ⟨by linarith, by linarith⟩

/-- C9, as stated, fails in the arithmetic of the code: at the integer radius
16777220, a binary32 value, `y--` leaves `y` unchanged, and the loop emits a
symmetric group at the octant point (5793, 16777220), whose squared distance
from the centre exceeds (r+1)². -/
theorem octant_band_fails_binary32 :
    (1 : ℤ) ≤ 16777220 ∧
      ((5793 : ℚ), (16777220 : ℚ)) ∈ octantPointsF 5794 0 16777220 (d0F 16777220) ∧
      ¬ ((5793 : ℚ) ^ 2 + (16777220 : ℚ) ^ 2 ≤ ((16777220 : ℚ) + 1) ^ 2) := by
  refine ⟨by decide, ?_, by norm_num⟩
  have h := octantPointsF_stuck_mem 5793 5794 0 (d0F 16777220) (by norm_num) (by norm_num)
  simpa using h

/-- C9, amended.  With arithmetic read exactly over the rationals: for every
integer radius r ≥ 1, every octant point (x, y) at which `bresenhamCircle`
emits a symmetric group satisfies 0 ≤ x ≤ y ≤ r and
(r−1)² ≤ x² + y² ≤ (r+1)², so every emitted point (native coordinates) has a
squared distance from the centre between (r−1)² and (r+1)².  In binary32
arithmetic the same holds for every integer radius 1 ≤ r ≤ 2²⁰, the emitted
points being taken for integer centres with |cx|, |cy| ≤ 2²². -/
theorem octant_within_one_unit (r : ℤ) (hr : 1 ≤ r) :
    (∀ p ∈ octantPoints 0 (r : ℚ) ((3 - 2 * (r : ℚ)) / 2),
      0 ≤ p.1 ∧ p.1 ≤ p.2 ∧ p.2 ≤ (r : ℚ) ∧
        ((r : ℚ) - 1) ^ 2 ≤ p.1 ^ 2 + p.2 ^ 2 ∧ p.1 ^ 2 + p.2 ^ 2 ≤ ((r : ℚ) + 1) ^ 2) ∧
      (∀ cx cy px py : ℚ, emits cx cy (r : ℚ) px py →
        ((r : ℚ) - 1) ^ 2 ≤ (px - cx) ^ 2 + (py - cy) ^ 2 ∧
          (px - cx) ^ 2 + (py - cy) ^ 2 ≤ ((r : ℚ) + 1) ^ 2) ∧
      (r ≤ 1048576 →
        (∀ (n : ℕ), ∀ p ∈ octantPointsF n 0 (r : ℚ) (d0F (r : ℚ)),
          0 ≤ p.1 ∧ p.1 ≤ p.2 ∧ p.2 ≤ (r : ℚ) ∧
            ((r : ℚ) - 1) ^ 2 ≤ p.1 ^ 2 + p.2 ^ 2 ∧ p.1 ^ 2 + p.2 ^ 2 ≤ ((r : ℚ) + 1) ^ 2) ∧
        (∀ cx cy : ℤ, |cx| ≤ 4194304 → |cy| ≤ 4194304 →
          ∀ (n : ℕ), ∀ q ∈ nativePointsF n (cx : ℚ) (cy : ℚ) (r : ℚ),
            ((r : ℚ) - 1) ^ 2 ≤ (q.1 - (cx : ℚ)) ^ 2 + (q.2 - (cy : ℚ)) ^ 2 ∧
              (q.1 - (cx : ℚ)) ^ 2 + (q.2 - (cy : ℚ)) ^ 2 ≤ ((r : ℚ) + 1) ^ 2)) := by
  have main := octantPoints_band r hr
  refine ⟨main, ?_, ?_⟩
  · intro cx cy px py h
    rw [emits_iff] at h
    obtain ⟨p, hp, hoff⟩ := h
    rw [symmetricOffsets_sq hoff]
    exact ⟨(main p hp).2.2.2.1, (main p hp).2.2.2.2⟩
  · intro hle
    have hr0 : 0 ≤ r := by omega
    constructor
    · intro n p hp
      exact main p (octantPointsF_mem_exact r hr0 hle n p hp)
    · intro cx cy hcx hcy n q hq
      obtain ⟨p, hp, hoff⟩ := nativePointsF_mem_exact cx cy r hr0 hle hcx hcy n q hq
      rw [symmetricOffsets_sq hoff]
      exact ⟨(main p hp).2.2.2.1, (main p hp).2.2.2.2⟩

/-- The amended C9 at radius 5 and the octant point (2,5), in exact
arithmetic and in binary32. -/
theorem octant_within_one_unit_witness :
    (1 : ℤ) ≤ 5 ∧ (((5 : ℤ) : ℚ) - 1) ^ 2 ≤ (2 : ℚ) ^ 2 + (5 : ℚ) ^ 2 ∧
      ((5 : ℤ) ≤ 1048576 ∧ (2 : ℚ) ^ 2 + (5 : ℚ) ^ 2 ≤ (((5 : ℤ) : ℚ) + 1) ^ 2) :=
  ⟨by decide,
    ((octant_within_one_unit 5 (by decide)).1 (2, 5) (by
      have h := octantPoints_radius_five
      norm_num at h ⊢
      rw [h]; simp)).2.2.2.1,
    by decide,
    (((octant_within_one_unit 5 (by decide)).2.2 (by decide)).1 6 (2, 5) (by
      have h := octantPointsF_radius_five
      norm_num at h ⊢
      rw [h]; simp)).2.2.2.2⟩

/-- C10, as stated, fails in the arithmetic of the code: at radius 16777220,
a binary32 value, neither `y--` nor, from 2²⁴ on, `x++` changes its variable,
so the loop is still running after any number of iterations; after 16777222
iterations it has run more than ⌊radius⌋ + 1 times. -/
theorem loop_never_exits_binary32 :
    (0 : ℚ) ≤ 16777220 ∧ (∀ n : ℕ, bresenhamCircleF n 0 0 16777220 = none) ∧
      (octantPointsF 16777222 0 16777220 (d0F 16777220)).length = 16777222 ∧
      ¬ (16777222 ≤ ⌊(16777220 : ℚ)⌋.toNat + 1) := by
  refine ⟨by norm_num, ?_, ?_, ?_⟩
  · intro n
    have h := (circleLoopF_stuck 0 0 n 0 (d0F 16777220) (by norm_num)).1
    simpa [bresenhamCircleF] using h
  · have h := (circleLoopF_stuck 0 0 16777222 0 (d0F 16777220) (by norm_num)).2
    simpa using h
  · have hf : ⌊(16777220 : ℚ)⌋ = 16777220 := by
      rw [Int.floor_eq_iff]; constructor <;> norm_num
    rw [hf]
    decide

/-- C10, amended.  With arithmetic read exactly over the rationals: for a
negative radius `bresenhamCircle` returns the empty sequence; for a radius ≥ 0
its loop runs at least once and at most ⌊radius⌋ + 1 times, and the output,
24 floats (8 points) per iteration, is non-empty.  In binary32 arithmetic: for
a negative radius the loop exits at once with the empty sequence; for
0 ≤ radius < 2²⁴ the loop runs at least once, at most ⌊radius⌋ + 1 times, and
exits with a non-empty output of 24 floats per iteration. -/
theorem iterations_bounded (cx cy r : ℚ) :
    (r < 0 → bresenhamCircle cx cy r = [] ∧ octantPoints 0 r ((3 - 2 * r) / 2) = []) ∧
      (0 ≤ r →
        1 ≤ (octantPoints 0 r ((3 - 2 * r) / 2)).length ∧
        (octantPoints 0 r ((3 - 2 * r) / 2)).length ≤ ⌊r⌋.toNat + 1 ∧
        (bresenhamCircle cx cy r).length = 24 * (octantPoints 0 r ((3 - 2 * r) / 2)).length ∧
        bresenhamCircle cx cy r ≠ []) ∧
      (r < 0 → ∀ n : ℕ, bresenhamCircleF (n + 1) cx cy r = some []) ∧
      (0 ≤ r → r < 16777216 →
        ∃ out : List ℚ,
          (∀ n, ⌊r⌋.toNat + 2 ≤ n → bresenhamCircleF n cx cy r = some out) ∧ out ≠ [] ∧
            out.length = 24 * (octantPointsF (⌊r⌋.toNat + 2) 0 r (d0F r)).length ∧
            (∀ n, (octantPointsF n 0 r (d0F r)).length ≤ ⌊r⌋.toNat + 1) ∧
            (∀ n, 1 ≤ (octantPointsF (n + 1) 0 r (d0F r)).length)) := by
  refine ⟨?_, ?_, ?_, ?_⟩
  · intro h
    exact ⟨circleLoop_exit cx cy _ h, octantPoints_exit _ h⟩
  · intro h
    have h1 : 1 ≤ (octantPoints 0 r ((3 - 2 * r) / 2)).length := by
      by_cases hd : (3 - 2 * r) / 2 < 0
      · rw [octantPoints_east h hd]; simp
      · rw [octantPoints_south h (not_lt.mp hd)]; simp
    have h2 : (octantPoints 0 r ((3 - 2 * r) / 2)).length ≤ ⌊r⌋.toNat + 1 := by
      have := length_octantPoints_le 0 r ((3 - 2 * r) / 2)
      rw [sub_zero] at this
      have hfl : (0 : ℤ) ≤ ⌊r⌋ := Int.floor_nonneg.mpr h
      omega
    have h3 : (bresenhamCircle cx cy r).length =
        24 * (octantPoints 0 r ((3 - 2 * r) / 2)).length := length_circleLoop cx cy 0 r _
    refine ⟨h1, h2, h3, ?_⟩
    intro hnil
    have hlen : (bresenhamCircle cx cy r).length = 0 := by rw [hnil]; rfl
    omega
  · intro h n
    exact circleLoopF_exit n cx cy _ h
  · intro h0 hlt
    exact bresenhamCircleF_halts cx cy r h0 hlt

/-- The amended C10 at radius −1 (no point) and radius 5 (between 1 and 6
iterations), in exact arithmetic and in binary32. -/
theorem iterations_bounded_witness :
    bresenhamCircle 0 0 (-1) = [] ∧
      (1 ≤ (octantPoints 0 5 ((3 - 2 * 5) / 2)).length ∧
        (octantPoints 0 5 ((3 - 2 * 5) / 2)).length ≤ ⌊(5 : ℚ)⌋.toNat + 1) ∧
      bresenhamCircleF (0 + 1) 0 0 (-1) = some [] ∧
      (∃ out : List ℚ, bresenhamCircleF (⌊(5 : ℚ)⌋.toNat + 2) 0 0 5 = some out ∧ out ≠ []) :=
  ⟨((iterations_bounded 0 0 (-1)).1 (by norm_num)).1,
    ⟨((iterations_bounded 0 0 5).2.1 (by norm_num)).1,
      ((iterations_bounded 0 0 5).2.1 (by norm_num)).2.1⟩,
    (iterations_bounded 0 0 (-1)).2.2.1 (by norm_num) 0,
    by
      obtain ⟨out, h1, h2, -⟩ := (iterations_bounded 0 0 5).2.2.2 (by norm_num) (by norm_num)
      exact ⟨out, h1 _ (le_refl _), h2⟩⟩

/-! ## The line output in closed form -/

theorem ddaLoop_eq_flatMap (stepsize xinc yinc : ℚ) (i : ℕ) (x y : ℚ) :
    ddaLoop stepsize xinc yinc i x y =
      (List.range (⌊stepsize⌋ + 1 - (i : ℤ)).toNat).flatMap fun (k : ℕ) =>
        [x + (k : ℚ) * xinc, y + (k : ℚ) * yinc, 0] := by
  induction i, x, y using ddaLoop.induct stepsize xinc yinc with
  | case1 i x y hi ih =>
    have h0 : (i : ℤ) ≤ ⌊stepsize⌋ := Int.le_floor.mpr (by exact_mod_cast hi)
    have hn : (⌊stepsize⌋ + 1 - (i : ℤ)).toNat =
        (⌊stepsize⌋ + 1 - ((i + 1 : ℕ) : ℤ)).toNat + 1 := by
      push_cast; omega
    rw [ddaLoop_step xinc yinc x y hi, ih, hn, List.range_succ_eq_map, List.flatMap_cons,
      List.flatMap_map]
    simp only [Nat.cast_zero, zero_mul, add_zero, List.cons_append, List.nil_append,
      List.cons.injEq, true_and]
    congr 1
    funext k
    simp only [Function.comp_apply, Nat.succ_eq_add_one, Nat.cast_add, Nat.cast_one]
    congr 1
    · ring
    · congr 1; ring
  | case2 i x y hi =>
    have h0 : ⌊stepsize⌋ < (i : ℤ) := Int.floor_lt.mpr (by exact_mod_cast not_le.mp hi)
    have hn : (⌊stepsize⌋ + 1 - (i : ℤ)).toNat = 0 := by omega
    rw [ddaLoop_exit xinc yinc x y (not_le.mp hi), hn]
    rfl

theorem vertices_flatMap_triple (f g : ℕ → ℚ) (l : List ℕ) :
    vertices (l.flatMap fun k => [f k, g k, 0]) = l.map fun k => (f k, g k) := by
  induction l with
  | nil => simp [vertices]
  | cons a l ih =>
    rw [List.flatMap_cons, List.map_cons]
    simp only [List.cons_append, List.nil_append, vertices_cons, ih]

/-- The points of the `DDA` loop started at counter 0: sample `k`, for
`k = 0 .. ⌊stepsize⌋`, is the start plus `k` increments. -/
theorem vertices_ddaLoop_zero (stepsize xinc yinc x y : ℚ) (hs : 0 ≤ stepsize) :
    vertices (ddaLoop stepsize xinc yinc 0 x y) =
      (List.range (⌊stepsize⌋.toNat + 1)).map
        fun (k : ℕ) => (x + (k : ℚ) * xinc, y + (k : ℚ) * yinc) := by
  have h0 : (0 : ℤ) ≤ ⌊stepsize⌋ := Int.floor_nonneg.mpr hs
  have hn : (⌊stepsize⌋ + 1 - ((0 : ℕ) : ℤ)).toNat = ⌊stepsize⌋.toNat + 1 := by
    push_cast; omega
  rw [ddaLoop_eq_flatMap, hn]
  exact vertices_flatMap_triple _ _ _

theorem stepsize_nonneg (dx dy : ℚ) : 0 ≤ max |dx| |dy| :=
  le_max_of_le_left (abs_nonneg _)

/-- The `DDA` loop started at counter 0 pushes three floats for each of its
`⌊stepsize⌋ + 1` iterations. -/
theorem length_ddaLoop_zero (stepsize xinc yinc x y : ℚ) (hs : 0 ≤ stepsize) :
    (ddaLoop stepsize xinc yinc 0 x y).length = 3 * (⌊stepsize⌋.toNat + 1) := by
  have h0 : (0 : ℤ) ≤ ⌊stepsize⌋ := Int.floor_nonneg.mpr hs
  have hn : (⌊stepsize⌋ + 1 - ((0 : ℕ) : ℤ)).toNat = ⌊stepsize⌋.toNat + 1 := by
    push_cast; omega
  rw [ddaLoop_eq_flatMap, hn]
  generalize ⌊stepsize⌋.toNat + 1 = m
  induction m with
  | zero => rfl
  | succ m ih =>
    rw [List.range_succ, List.flatMap_append, List.length_append, ih]
    simp only [List.flatMap_cons, List.flatMap_nil, List.append_nil, List.length_cons,
      List.length_nil]
    ring

theorem canonical_swap {x0 x1 : ℚ} (y0 y1 : ℚ) (h : x0 ≠ x1) :
    canonical x0 y0 x1 y1 = canonical x1 y1 x0 y0 := by
  unfold canonical
  rcases lt_or_gt_of_ne h with h1 | h1
  · rw [if_neg (not_lt.mpr h1.le), if_pos h1]
  · rw [if_pos h1, if_neg (not_lt.mpr h1.le)]

/-! ## Claims about the line generator -/

/-- C5: `DDA` called with both endpoints equal to p yields exactly one
point, p (three floats x, y, 0); the loop then runs once whatever the two
increments are, so the result does not depend on the value of the division
by the zero step count. -/
theorem identical_endpoints_one_point (px py : ℚ) :
    DDA px py px py = [px, py, 0] ∧ vertices (DDA px py px py) = [(px, py)] ∧
      (∀ xinc yinc : ℚ, ddaLoop 0 xinc yinc 0 px py = [px, py, 0]) ∧
      vertices (DDA 0 0 0 0) = [(0, 0)] := by
  have hloop : ∀ x y xinc yinc : ℚ, ddaLoop 0 xinc yinc 0 x y = [x, y, 0] := by
    intro x y xinc yinc
    rw [ddaLoop_step xinc yinc x y (by norm_num), ddaLoop_exit _ _ _ _ (by norm_num)]
  have hD : ∀ x y : ℚ, DDA x y x y = [x, y, 0] := by
    intro x y
    unfold DDA canonical
    simp only [lt_self_iff_false, if_false, sub_self, abs_zero, max_self]
    exact hloop _ _ _ _
  refine ⟨hD px py, ?_, hloop px py, ?_⟩
  · rw [hD]; rfl
  · rw [hD]; rfl


theorem head?_map_range_succ {α : Type} (f : ℕ → α) (n : ℕ) :
    ((List.range (n + 1)).map f).head? = some (f 0) := by
  rw [List.range_succ_eq_map]; rfl

theorem getLast?_map_range_succ {α : Type} (f : ℕ → α) (n : ℕ) :
    ((List.range (n + 1)).map f).getLast? = some (f n) := by
  rw [List.range_succ, List.map_append, List.map_singleton, List.getLast?_append]
  rfl

/-- The last sample, `t` increments from the start with `t ≤ stepsize < t + 1`,
is within one increment of the end. -/
theorem last_step_bound (s t dx : ℚ) (hs : |dx| ≤ s) (h1 : t ≤ s) (h2 : s < t + 1) :
    |t * (dx / s) - dx| ≤ |dx / s| := by
  by_cases h0 : s = 0
  · have hdx : dx = 0 := abs_nonpos_iff.mp (h0 ▸ hs)
    rw [hdx]; simp
  · have hdx : t * (dx / s) - dx = (t - s) * (dx / s) := by
      field_simp
      ring
    rw [hdx, abs_mul]
    have hts : |t - s| ≤ 1 := by
      rw [abs_le]; constructor <;> linarith
    exact mul_le_of_le_one_left (abs_nonneg _) hts

/-- C6: the first point emitted by `DDA` is the endpoint with the smaller x
(start when the x-coordinates are equal), and the last emitted point differs
from the other endpoint by at most |xInc| in x and at most |yInc| in y, where
xInc = dx/steps and yInc = dy/steps. -/
theorem first_and_last_point (x0 y0 x1 y1 : ℚ) :
    (let c := canonical x0 y0 x1 y1
     let dx := c.2.2.1 - c.1
     let dy := c.2.2.2 - c.2.1
     let stepsize := max |dx| |dy|
     (c.1, c.2.1) = (if x1 < x0 then (x1, y1) else (x0, y0)) ∧
      (c.2.2.1, c.2.2.2) = (if x1 < x0 then (x0, y0) else (x1, y1)) ∧
      (vertices (DDA x0 y0 x1 y1)).head? = some (c.1, c.2.1) ∧
      ∃ lx ly : ℚ, (vertices (DDA x0 y0 x1 y1)).getLast? = some (lx, ly) ∧
        |lx - c.2.2.1| ≤ |dx / stepsize| ∧ |ly - c.2.2.2| ≤ |dy / stepsize|) := by
  intro c dx dy stepsize
  have hD : DDA x0 y0 x1 y1 = ddaLoop stepsize (dx / stepsize) (dy / stepsize) 0 c.1 c.2.1 := rfl
  have hs : 0 ≤ stepsize := stepsize_nonneg dx dy
  have hv := vertices_ddaLoop_zero stepsize (dx / stepsize) (dy / stepsize) c.1 c.2.1 hs
  have hfl : (0 : ℤ) ≤ ⌊stepsize⌋ := Int.floor_nonneg.mpr hs
  have ht : ((⌊stepsize⌋.toNat : ℕ) : ℚ) = ((⌊stepsize⌋ : ℤ) : ℚ) := by
    have : ((⌊stepsize⌋.toNat : ℕ) : ℤ) = ⌊stepsize⌋ := Int.toNat_of_nonneg hfl
    exact_mod_cast congrArg (fun z : ℤ => (z : ℚ)) this
  refine ⟨?_, ?_, ?_, ?_⟩
  · show ((canonical x0 y0 x1 y1).1, (canonical x0 y0 x1 y1).2.1) = _
    unfold canonical; split_ifs <;> rfl
  · show ((canonical x0 y0 x1 y1).2.2.1, (canonical x0 y0 x1 y1).2.2.2) = _
    unfold canonical; split_ifs <;> rfl
  · rw [hD, hv, head?_map_range_succ]
    simp
  · refine ⟨c.1 + (⌊stepsize⌋.toNat : ℚ) * (dx / stepsize),
      c.2.1 + (⌊stepsize⌋.toNat : ℚ) * (dy / stepsize), ?_, ?_, ?_⟩
    · rw [hD, hv, getLast?_map_range_succ]
    · have := last_step_bound stepsize (⌊stepsize⌋ : ℚ) dx (le_max_left _ _)
        (Int.floor_le _) (Int.lt_floor_add_one _)
      rw [ht]
      have e : c.1 + (⌊stepsize⌋ : ℚ) * (dx / stepsize) - c.2.2.1 =
          (⌊stepsize⌋ : ℚ) * (dx / stepsize) - dx := by
        show _ = _ - (c.2.2.1 - c.1); ring
      rw [e]; exact this
    · have := last_step_bound stepsize (⌊stepsize⌋ : ℚ) dy (le_max_right _ _)
        (Int.floor_le _) (Int.lt_floor_add_one _)
      rw [ht]
      have e : c.2.1 + (⌊stepsize⌋ : ℚ) * (dy / stepsize) - c.2.2.2 =
          (⌊stepsize⌋ : ℚ) * (dy / stepsize) - dy := by
        show _ = _ - (c.2.2.2 - c.2.1); ring
      rw [e]; exact this


/-- When the step count is a natural number `n`, `DDA` emits the `n + 1`
samples `k = 0 .. n`. -/
theorem vertices_DDA_of_nat (x0 y0 x1 y1 : ℚ) (n : ℕ)
    (hn : max |(canonical x0 y0 x1 y1).2.2.1 - (canonical x0 y0 x1 y1).1|
      |(canonical x0 y0 x1 y1).2.2.2 - (canonical x0 y0 x1 y1).2.1| = (n : ℚ)) :
    vertices (DDA x0 y0 x1 y1) =
      (List.range (n + 1)).map fun (k : ℕ) =>
        ((canonical x0 y0 x1 y1).1 + (k : ℚ) *
            (((canonical x0 y0 x1 y1).2.2.1 - (canonical x0 y0 x1 y1).1) / (n : ℚ)),
          (canonical x0 y0 x1 y1).2.1 + (k : ℚ) *
            (((canonical x0 y0 x1 y1).2.2.2 - (canonical x0 y0 x1 y1).2.1) / (n : ℚ))) := by
  unfold DDA
  simp only []
  rw [hn, vertices_ddaLoop_zero _ _ _ _ _ (Nat.cast_nonneg n), Int.floor_natCast,
    Int.toNat_natCast]

theorem vertices_DDA_diagonal :
    vertices (DDA 0 0 4 4) = [(0, 0), (1, 1), (2, 2), (3, 3), (4, 4)] := by
  norm_num [DDA, canonical, ddaLoop_exit, ddaLoop_step, vertices]

/-- C4: for distinct endpoints with integer coordinates, with
n = max(|dx|, |dy|), `DDA` yields exactly n + 1 points, point i (i = 0..n)
being the canonical start plus i·(dx/n, dy/n), and the last point is the
canonical end; `DDA` from (0,0) to (4,4) yields (0,0),(1,1),(2,2),(3,3),(4,4)
and from (0,0) to (4,0) yields (0,0),(1,0),(2,0),(3,0),(4,0). -/
theorem integer_endpoints_samples :
    (∀ a0 b0 a1 b1 : ℤ, (a0, b0) ≠ (a1, b1) →
      let c := canonical (a0 : ℚ) (b0 : ℚ) (a1 : ℚ) (b1 : ℚ)
      let dx := c.2.2.1 - c.1
      let dy := c.2.2.2 - c.2.1
      let n : ℕ := (max |a1 - a0| |b1 - b0|).toNat
      (n : ℚ) = max |dx| |dy| ∧ 1 ≤ n ∧
        vertices (DDA (a0 : ℚ) (b0 : ℚ) (a1 : ℚ) (b1 : ℚ)) =
          ((List.range (n + 1)).map fun (i : ℕ) =>
            (c.1 + (i : ℚ) * (dx / (n : ℚ)), c.2.1 + (i : ℚ) * (dy / (n : ℚ)))) ∧
        (vertices (DDA (a0 : ℚ) (b0 : ℚ) (a1 : ℚ) (b1 : ℚ))).length = n + 1 ∧
        (DDA (a0 : ℚ) (b0 : ℚ) (a1 : ℚ) (b1 : ℚ)).length = 3 * (n + 1) ∧
        (vertices (DDA (a0 : ℚ) (b0 : ℚ) (a1 : ℚ) (b1 : ℚ))).getLast? =
          some (c.2.2.1, c.2.2.2)) ∧
      vertices (DDA 0 0 4 4) = [(0, 0), (1, 1), (2, 2), (3, 3), (4, 4)] ∧
      vertices (DDA 0 0 4 0) = [(0, 0), (1, 0), (2, 0), (3, 0), (4, 0)] := by
  refine ⟨?_, vertices_DDA_diagonal, ?_⟩
  · intro a0 b0 a1 b1 hne c dx dy n
    have hm0 : 0 ≤ max |a1 - a0| |b1 - b0| := le_max_of_le_left (abs_nonneg _)
    have hmpos : 0 < max |a1 - a0| |b1 - b0| := by
      rcases lt_or_eq_of_le hm0 with h | h
      · exact h
      · exfalso
        apply hne
        have h1 : |a1 - a0| ≤ 0 := h ▸ le_max_left _ _
        have h2 : |b1 - b0| ≤ 0 := h ▸ le_max_right _ _
        have e1 : a1 - a0 = 0 := abs_nonpos_iff.mp h1
        have e2 : b1 - b0 = 0 := abs_nonpos_iff.mp h2
        ext
        · simp only; omega
        · simp only; omega
    have hnZ : ((n : ℕ) : ℤ) = max |a1 - a0| |b1 - b0| := Int.toNat_of_nonneg hm0
    have hn1 : 1 ≤ n := by omega
    have hnQ : (n : ℚ) = max |(a1 : ℚ) - a0| |(b1 : ℚ) - b0| := by
      have : ((n : ℤ) : ℚ) = ((max |a1 - a0| |b1 - b0| : ℤ) : ℚ) := by rw [hnZ]
      push_cast at this
      exact this
    have hstep : max |dx| |dy| = (n : ℚ) := by
      rw [hnQ]
      show max |(canonical (a0 : ℚ) b0 a1 b1).2.2.1 - (canonical (a0 : ℚ) b0 a1 b1).1|
        |(canonical (a0 : ℚ) b0 a1 b1).2.2.2 - (canonical (a0 : ℚ) b0 a1 b1).2.1| = _
      unfold canonical
      split_ifs
      · simp only []
        rw [abs_sub_comm (a0 : ℚ), abs_sub_comm (b0 : ℚ)]
      · rfl
    have hv := vertices_DDA_of_nat (a0 : ℚ) b0 a1 b1 n hstep
    have hnne : (n : ℚ) ≠ 0 := by
      have : (0 : ℚ) < n := by exact_mod_cast hn1
      exact ne_of_gt this
    have hflat : (DDA (a0 : ℚ) (b0 : ℚ) (a1 : ℚ) (b1 : ℚ)).length = 3 * (n + 1) := by
      have hl := length_ddaLoop_zero (max |dx| |dy|) (dx / max |dx| |dy|) (dy / max |dx| |dy|)
        c.1 c.2.1 (stepsize_nonneg dx dy)
      have e : ⌊max |dx| |dy|⌋.toNat = n := by
        rw [hstep, Int.floor_natCast, Int.toNat_natCast]
      rw [e] at hl
      exact hl
    refine ⟨hstep.symm, hn1, hv, ?_, hflat, ?_⟩
    · rw [hv, List.length_map, List.length_range]
    · rw [hv, getLast?_map_range_succ]
      congr 2
      · show c.1 + (n : ℚ) * ((c.2.2.1 - c.1) / (n : ℚ)) = c.2.2.1
        field_simp
      · show c.2.1 + (n : ℚ) * ((c.2.2.2 - c.2.1) / (n : ℚ)) = c.2.2.2
        field_simp
  · norm_num [DDA, canonical, ddaLoop_exit, ddaLoop_step, vertices]

/-- C4 at the endpoints (0,0) and (4,4): n = 4 and the output has 5 points. -/
theorem integer_endpoints_samples_witness :
    ((0 : ℤ), (0 : ℤ)) ≠ (4, 4) ∧
      (vertices (DDA ((0 : ℤ) : ℚ) ((0 : ℤ) : ℚ) ((4 : ℤ) : ℚ) ((4 : ℤ) : ℚ))).length =
        (max |(4 : ℤ) - 0| |(4 : ℤ) - 0|).toNat + 1 :=
  ⟨by decide, (integer_endpoints_samples.1 0 0 4 4 (by decide)).2.2.2.1⟩


/-- A vertical line whose length is a natural number `n`: the samples are
`(x, y0 + k·((y1 − y0)/n))`, `k = 0 .. n`. -/
theorem vertices_DDA_vertical (x y0 y1 : ℚ) (n : ℕ) (hn : |y1 - y0| = (n : ℚ)) :
    vertices (DDA x y0 x y1) =
      (List.range (n + 1)).map fun (k : ℕ) => (x, y0 + (k : ℚ) * ((y1 - y0) / (n : ℚ))) := by
  have hc : canonical x y0 x y1 = (x, y0, x, y1) := by
    unfold canonical; rw [if_neg (lt_irrefl x)]
  have hstep : max |(canonical x y0 x y1).2.2.1 - (canonical x y0 x y1).1|
      |(canonical x y0 x y1).2.2.2 - (canonical x y0 x y1).2.1| = (n : ℚ) := by
    rw [hc]
    simp only [sub_self, abs_zero]
    rw [hn]
    exact max_eq_right (Nat.cast_nonneg n)
  rw [vertices_DDA_of_nat x y0 x y1 n hstep, hc]
  simp

/-- Walking a vertical line from the other end visits sample `n − i`. -/
theorem reverse_sample (y0 y1 q : ℚ) (n i : ℕ) (hi : i ≤ n) (hq : y1 = y0 + (n : ℚ) * q) :
    y1 + ((n - i : ℕ) : ℚ) * (-q) = y0 + (i : ℚ) * q := by
  rw [Nat.cast_sub hi, hq]; ring

theorem vertical_subset (x y0 y1 : ℚ) (n : ℕ) (hn : |y1 - y0| = (n : ℚ)) (p : ℚ × ℚ)
    (hp : p ∈ vertices (DDA x y0 x y1)) : p ∈ vertices (DDA x y1 x y0) := by
  have hn' : |y0 - y1| = (n : ℚ) := by rw [abs_sub_comm]; exact hn
  rw [vertices_DDA_vertical x y0 y1 n hn, List.mem_map] at hp
  rw [vertices_DDA_vertical x y1 y0 n hn', List.mem_map]
  obtain ⟨i, hi, rfl⟩ := hp
  rw [List.mem_range] at hi
  refine ⟨n - i, List.mem_range.mpr (by omega), ?_⟩
  have hq : y1 = y0 + (n : ℚ) * ((y1 - y0) / (n : ℚ)) := by
    by_cases h0 : (n : ℚ) = 0
    · rw [h0] at hn
      have : y1 - y0 = 0 := abs_eq_zero.mp hn
      rw [h0]; linarith
    · field_simp
  have hneg : (y0 - y1) / (n : ℚ) = -((y1 - y0) / (n : ℚ)) := by ring
  rw [hneg, reverse_sample y0 y1 _ n i (by omega) hq]

/-- C7, as stated, fails: `DDA` from (0,0) to (0,1/2) emits only (0,0), while
`DDA` from (0,1/2) to (0,0) emits only (0,1/2). -/
theorem endpoint_order_changes_point_set :
    vertices (DDA 0 0 0 (1 / 2)) = [(0, 0)] ∧ vertices (DDA 0 (1 / 2) 0 0) = [(0, 1 / 2)] ∧
      ¬ (∀ p : ℚ × ℚ, p ∈ vertices (DDA 0 0 0 (1 / 2)) ↔ p ∈ vertices (DDA 0 (1 / 2) 0 0)) := by
  have hA : vertices (DDA 0 0 0 (1 / 2)) = [(0, 0)] := by
    have h : |(1 : ℚ) / 2| = 1 / 2 := abs_of_pos (by norm_num)
    norm_num [DDA, canonical, h, ddaLoop_exit, ddaLoop_step, vertices]
  have hB : vertices (DDA 0 (1 / 2) 0 0) = [(0, 1 / 2)] := by
    have h : |(1 : ℚ) / 2| = 1 / 2 := abs_of_pos (by norm_num)
    norm_num [DDA, canonical, h, ddaLoop_exit, ddaLoop_step, vertices]
  refine ⟨hA, hB, ?_⟩
  intro h
  have h0 := (h (0, 0)).mp (by rw [hA]; exact List.mem_singleton.mpr rfl)
  rw [hB, List.mem_singleton, Prod.mk.injEq] at h0
  norm_num at h0

/-- C7, amended: when the two endpoints have different x-coordinates, `DDA`
returns the same sequence whichever endpoint is passed first; when they have
the same x-coordinate and their y-coordinates differ by an integer, the two
calls emit the same set of points. -/
theorem endpoint_order_same_point_set (x0 y0 x1 y1 : ℚ)
    (h : x0 ≠ x1 ∨ (x0 = x1 ∧ ∃ k : ℤ, y1 - y0 = (k : ℚ))) :
    (x0 ≠ x1 → DDA x0 y0 x1 y1 = DDA x1 y1 x0 y0) ∧
      ∀ p : ℚ × ℚ, p ∈ vertices (DDA x0 y0 x1 y1) ↔ p ∈ vertices (DDA x1 y1 x0 y0) := by
  have hseq : x0 ≠ x1 → DDA x0 y0 x1 y1 = DDA x1 y1 x0 y0 := by
    intro hne
    unfold DDA
    rw [canonical_swap y0 y1 hne]
  refine ⟨hseq, ?_⟩
  rcases h with hne | ⟨rfl, k, hk⟩
  · intro p; rw [hseq hne]
  · have hn : |y1 - y0| = ((k.natAbs : ℕ) : ℚ) := by
      rw [hk, Nat.cast_natAbs, Int.cast_abs]
    have hn' : |y0 - y1| = ((k.natAbs : ℕ) : ℚ) := by rw [abs_sub_comm]; exact hn
    intro p
    exact ⟨vertical_subset x0 y0 y1 _ hn p, vertical_subset x0 y1 y0 _ hn' p⟩

/-- The amended C7 on the vertical segment between (0,0) and (0,2). -/
theorem endpoint_order_same_point_set_witness :
    ((0 : ℚ) ≠ 0 ∨ ((0 : ℚ) = 0 ∧ ∃ k : ℤ, (2 : ℚ) - 0 = (k : ℚ))) ∧
      ∀ p : ℚ × ℚ, p ∈ vertices (DDA 0 0 0 2) ↔ p ∈ vertices (DDA 0 2 0 0) :=
  have h : (0 : ℚ) ≠ 0 ∨ ((0 : ℚ) = 0 ∧ ∃ k : ℤ, (2 : ℚ) - 0 = (k : ℚ)) :=
    Or.inr ⟨rfl, 2, by norm_num⟩
  ⟨h, (endpoint_order_same_point_set 0 0 0 2 h).2⟩


/-! ## The coordinate mapper -/

/-- C8: with the extent fixed at width 800 and height 600, `toNDC` maps (x, y)
to (2·x/800 − 1, 2·y/600 − 1); it maps (400,300) to (0,0) and (0,0) to
(−1,−1). -/
theorem toNDC_formula (x y : ℚ) :
    toNDC x y = (2 * x / 800 - 1, 2 * y / 600 - 1) ∧ toNDC 400 300 = (0, 0) ∧
      toNDC 0 0 = (-1, -1) := by
  refine ⟨?_, ?_, ?_⟩
  · simp [toNDC, SCR_WIDTH, SCR_HEIGHT]
  · norm_num [toNDC, SCR_WIDTH, SCR_HEIGHT]
  · norm_num [toNDC, SCR_WIDTH, SCR_HEIGHT]

end Raster
